import Mathlib

/-!
Shallow embedding of the onion-message routing core
(`onionmessage/pathfind.go` and `onionmessage/send.go`) together with proofs
of the specification's claims about it.

Modelling conventions:
* `route.Vertex` (a 33-byte compressed public key, compared byte-wise) is
  modelled as `Nat`; the Go zero value corresponds to `0`.
* Go maps are modelled as association lists (`lookupV`) or membership lists;
  every insertion site in the source only inserts keys that are absent, so a
  head-insert association list has exactly the Go map semantics.
* Fallible Go calls return `Except`; an opaque Go `error` value is a `Nat`.
* The two loops whose iteration count Go bounds by `maxHops` and by the
  acyclicity of the parent map are written with an explicit fuel argument;
  exhausting the fuel yields `none`, which models divergence of the Go loop.
  `FindPathI` additionally carries a ghost boolean recording whether every
  parent-map lookup made during path reconstruction found its key (Go reads
  the zero value for a missing key); the boolean has no influence on the
  computed result and `FindPath` discards it.
-/

namespace OnionMessage

/-- `route.Vertex`: the 33-byte node identifier, modelled as `Nat`. -/
abbrev Vertex := Nat

/-- `lnwire.OnionMessagesOptional`: feature bit 39. -/
def OnionMessagesOptional : Nat := 39

/-- `lnwire.FeatureVector.HasFeature`: whether a feature vector advertises a
feature bit.  A feature vector is modelled as the list of bits it sets. -/
def hasFeature (feats : List Nat) (bit : Nat) : Bool := feats.contains bit

/-- The read-only graph adapter `graphdb.NodeTraverser`.

* `fetchNodeFeatures` models `FetchNodeFeatures`; `.error e` is a failed
  fetch carrying an opaque error code `e` (a node absent from the graph).
* `channels v` is the list of `channel.OtherNode` values that
  `ForEachNodeDirectedChannel v` hands to its callback, in iteration order.
* `channelErr v` models a genuine adapter failure of
  `ForEachNodeDirectedChannel v` (`none` = nil error); it is reported when
  the iteration itself completes without a callback error. -/
structure NodeTraverser where
  fetchNodeFeatures : Vertex → Except Nat (List Nat)
  channels : Vertex → List Vertex
  channelErr : Vertex → Option Nat

/-- `OnionMessagePath`: the route found for an onion message, ordered from
the first-hop peer to the destination (the source is not included). -/
structure OnionMessagePath where
  Hops : List Vertex
deriving DecidableEq, Repr

/-- Errors produced while building the onion message
(`buildOnionMessageForPath`); each constructor corresponds to one
`fmt.Errorf` site, carrying the hop index where applicable and the wrapped
opaque error code. -/
inductive BuildErr
  /-- A hop's vertex bytes did not parse as a valid public key
  (`invalid pubkey at hop %d` when `next = false`,
  `invalid next pubkey at hop %d` when `next = true`). -/
  | invalidHopKey (hop : Nat) (next : Bool) (e : Nat)
  /-- `encode route data hop %d`. -/
  | encodeRouteData (hop : Nat) (e : Nat)
  /-- `build blinded path`. -/
  | buildBlindedPath (e : Nat)
  /-- `convert to sphinx path`. -/
  | convertSphinxPath (e : Nat)
  /-- `create onion packet`. -/
  | createOnionPacket (e : Nat)
  /-- `encode onion packet`. -/
  | encodeOnionPacket (e : Nat)
deriving DecidableEq, Repr

/-- The error taxonomy of the onion-message core.  `graphErr e` is an opaque
error propagated from the graph adapter; `bfsDone` is the internal
`errBFSDone` sentinel; `buildFailed` wraps a `BuildErr`
(`failed to build onion message: %w`). -/
inductive OMError
  | graphErr (e : Nat)
  | destinationNoOnionSupport
  | noPathFound
  | bfsDone
  | pathToSelfUnsupported
  | emptyPath
  | buildFailed (e : BuildErr)
  | peerActorNotFound
deriving DecidableEq, Repr

/-- Association-list lookup, modelling a Go map read that distinguishes
presence (`m[k]` with `ok = true`). -/
def lookupV {β : Type} : List (Vertex × β) → Vertex → Option β
  | [], _ => none
  | (k, b) :: rest, a => if a = k then some b else lookupV rest a

/-- The mutable BFS state of `FindPath`: the `visited` set, the `parent`
map and the `featureCache` map. -/
structure BFSState where
  visited : List Vertex
  parent : List (Vertex × Vertex)
  featureCache : List (Vertex × Bool)

/-- The `supportsOnionMessages` closure of `FindPath`: checks (with caching)
whether a node advertises the onion-messages feature bit; a failed feature
fetch caches `false`. -/
def supportsOnionMessages (g : NodeTraverser) (cache : List (Vertex × Bool))
    (node : Vertex) : Bool × List (Vertex × Bool) :=
  match lookupV cache node with
  | some cached => (cached, cache)
  | none =>
    match g.fetchNodeFeatures node with
    | .error _ => (false, (node, false) :: cache)
    | .ok feats =>
      let supports := hasFeature feats OnionMessagesOptional
      (supports, (node, supports) :: cache)

/-- The body of the BFS visitor callback passed to
`ForEachNodeDirectedChannel` (pathfind.go lines 82-107): skip visited or
unsupported neighbors, otherwise mark visited, record the parent, signal
`errBFSDone` if the neighbor is the destination, and otherwise append the
neighbor to `nextQueue`. -/
def visitNeighbor (g : NodeTraverser) (destination current neighbor : Vertex)
    (st : BFSState) (nextQueue : List Vertex) :
    BFSState × List Vertex × Option OMError :=
  if neighbor ∈ st.visited then (st, nextQueue, none)
  else
    match supportsOnionMessages g st.featureCache neighbor with
    | (supports, cache) =>
      if !supports then ({ st with featureCache := cache }, nextQueue, none)
      else
        let st2 : BFSState :=
          { visited := neighbor :: st.visited,
            parent := (neighbor, current) :: st.parent,
            featureCache := cache }
        if neighbor = destination then (st2, nextQueue, some .bfsDone)
        else (st2, nextQueue ++ [neighbor], none)

/-- The adapter call `graph.ForEachNodeDirectedChannel current cb reset`: it
invokes the visitor once per channel of `current`, stops at and propagates
the first callback error, and otherwise reports its own error (if any). -/
def forEachNodeDirectedChannel (g : NodeTraverser) (destination current : Vertex) :
    List Vertex → BFSState → List Vertex → BFSState × List Vertex × Option OMError
  | [], st, nq => (st, nq, (g.channelErr current).map OMError.graphErr)
  | n :: rest, st, nq =>
    match visitNeighbor g destination current n st nq with
    | (st', nq', some e) => (st', nq', some e)
    | (st', nq', none) => forEachNodeDirectedChannel g destination current rest st' nq'

/-- Outcome of processing the currents of one BFS level
(pathfind.go lines 80-130). -/
inductive LevelResult
  /-- `err == errBFSDone`: the destination was discovered; `FindPath`
  reconstructs and returns the path from this state. -/
  | done (st : BFSState)
  /-- `err != nil`: a genuine error, returned to the caller. -/
  | fail (e : OMError)
  /-- The whole level was processed; continue with `nextQueue`. -/
  | next (st : BFSState) (nq : List Vertex)

/-- The `for _, current := range queue` loop of one BFS level: iterate the
adapter over each current, convert the `errBFSDone` sentinel into `done`,
return any other non-nil error via `fail`. -/
def processQueue (g : NodeTraverser) (destination : Vertex) :
    List Vertex → BFSState → List Vertex → LevelResult
  | [], st, nq => .next st nq
  | current :: rest, st, nq =>
    match forEachNodeDirectedChannel g destination current (g.channels current) st nq with
    | (st', _, some e) => if e = .bfsDone then .done st' else .fail e
    | (st', nq', none) => processQueue g destination rest st' nq'

/-- The `for current != source` loop of `reconstructPath`, with fuel: walk
the parent map from `current`, collecting vertices in Go's append order; at
`source`, reverse.  A missing key reads the Go zero value (`0`) — the ghost
boolean of the result turns `false` in that case, without influencing the
computed list.  `none` models divergence of the Go loop. -/
def reconstructAux (parent : List (Vertex × Vertex)) (source : Vertex) :
    Nat → Vertex → List Vertex → Option (List Vertex × Bool)
  | 0, _, _ => none
  | fuel + 1, current, path =>
    if current = source then some (path.reverse, true)
    else
      match lookupV parent current with
      | some next => reconstructAux parent source fuel next (path ++ [current])
      | none =>
        (reconstructAux parent source fuel 0 (path ++ [current])).map
          (fun r => (r.1, false))

/-- `reconstructPath`: rebuild the path from destination back to source using
the parent map, returning the hops in forward order (excluding the source).
The fuel `parent.length + 1` suffices exactly when the Go loop terminates
through pairwise-distinct keys of the parent map. -/
def reconstructPath (parent : List (Vertex × Vertex)) (source destination : Vertex) :
    Option (OnionMessagePath × Bool) :=
  (reconstructAux parent source (parent.length + 1) destination []).map
    (fun r => (⟨r.1⟩, r.2))

/-- The `for len(queue) > 0` BFS loop of `FindPath` (lines 72-133): per
iteration increment the depth, break (returning `ErrNoPathFound`) once it
exceeds `maxHops`, process one level, and on `errBFSDone` reconstruct the
path.  The fuel only bounds the recursion; `FindPath` supplies enough fuel
that the `maxHops` check always fires first. -/
def bfsLoop (g : NodeTraverser) (source destination : Vertex) (maxHops : Int) :
    Nat → Int → List Vertex → BFSState →
    Option (Except OMError OnionMessagePath × Bool)
  | _, _, [], _ => some (.error .noPathFound, true)
  | fuel, depth, q :: qs, st =>
    if maxHops < depth + 1 then some (.error .noPathFound, true)
    else
      match fuel with
      | 0 => none
      | fuel + 1 =>
        match processQueue g destination (q :: qs) st [] with
        | .done st' =>
          match reconstructPath st'.parent source destination with
          | some (p, flag) => some (.ok p, flag)
          | none => none
        | .fail e => some (.error e, true)
        | .next st' nq => bfsLoop g source destination maxHops fuel (depth + 1) nq st'

/-- `FindPath` (instrumented): check the destination's features, handle
`source == destination`, then run the BFS from the state
`visited = ∅ ∪ source`, `parent = ∅`, `featureCache = destination ↦ true`.
The second component of the result is the ghost lookup flag of
`reconstructAux` (`true` on every non-reconstructing return path). -/
def FindPathI (g : NodeTraverser) (source destination : Vertex) (maxHops : Int) :
    Option (Except OMError OnionMessagePath × Bool) :=
  match g.fetchNodeFeatures destination with
  | .error e => some (.error (.graphErr e), true)
  | .ok destFeatures =>
    if !hasFeature destFeatures OnionMessagesOptional then
      some (.error .destinationNoOnionSupport, true)
    else if source = destination then
      some (.ok ⟨[]⟩, true)
    else
      bfsLoop g source destination maxHops (maxHops.toNat + 1) 0 [source]
        ⟨[source], [], [(destination, true)]⟩

/-- `FindPath`: the observable behaviour (`*OnionMessagePath, error`), with
the ghost flag discarded.  `none` models divergence. -/
def FindPath (g : NodeTraverser) (source destination : Vertex) (maxHops : Int) :
    Option (Except OMError OnionMessagePath) :=
  (FindPathI g source destination maxHops).map Prod.fst

/-! ## The onion-message builder and dispatcher (`send.go`)

The cryptographic primitives (`btcec`, the sphinx library, the TLV encoder)
are external to the repository; they are modelled as an abstract bundle of
deterministic functions `SphinxOps`.  A parsed public key, a session scalar
and the opaque intermediate values are all modelled as `Nat`. -/

/-- A parsed `btcec` public key (opaque). -/
abbrev PubKey := Nat

/-- A private session scalar (opaque). -/
abbrev Scalar := Nat

/-- Modelled from the spec: `record.BlindedRouteData` as the core uses it —
a record that can carry a next-node id (either a public key or a short
channel id) and padding; the final hop's record is empty
(`BlindedRouteData\x7b\x7d`, i.e. every field unset). -/
structure BlindedRouteData where
  nextNodeID : Option PubKey := none
  shortChannelID : Option Nat := none
  blindingOverride : Option PubKey := none
  padding : Option Nat := none
deriving DecidableEq, Repr

/-- Modelled from the spec:
`record.NewNonFinalBlindedRouteDataOnionMessage(nextNode, override, pad)`
builds a route-data record carrying the given next-node identity (a public
key on the left, a short channel id on the right), blinding override and
padding; the core passes `nil, nil` for the last two arguments, so the
record carries the next hop's public key and no channel-id or padding. -/
def NewNonFinalBlindedRouteDataOnionMessage (nextNode : Sum PubKey Nat)
    (blindingOverride : Option PubKey) (pad : Option Nat) : BlindedRouteData :=
  { nextNodeID := match nextNode with | .inl pk => some pk | .inr _ => none,
    shortChannelID := match nextNode with | .inl _ => none | .inr scid => some scid,
    blindingOverride := blindingOverride,
    padding := pad }

/-- `sphinx.HopInfo`: a hop's parsed public key together with the
serialized route-data plaintext. -/
structure HopInfo where
  NodePub : PubKey
  PlainText : List Nat
deriving DecidableEq, Repr

/-- The external cryptographic primitives consumed by `send.go`, as abstract
deterministic functions (all intermediate values opaque):
* `parsePubKey` models `btcec.ParsePubKey` on a vertex's 33 bytes;
* `encodeBlindedRouteData` models `record.EncodeBlindedRouteData`
  (canonical TLV bytes);
* `pubKeyOf` models `(*btcec.PrivateKey).PubKey()`;
* `buildBlindedPathHops` models the path component computed by
  `sphinx.BuildBlindedPath` from a session scalar and the hop infos;
* `toSphinxPath` models `route.OnionMessageBlindedPathToSphinxPath`
  (attaching the reply path and the final-hop TLVs);
* `newOnionPacket` models `sphinx.NewOnionPacket` with the fixed maximum
  payload size and the deterministic packet filler;
* `encodePacket` models `(*sphinx.OnionPacket).Encode`. -/
structure SphinxOps where
  parsePubKey : Vertex → Except Nat PubKey
  encodeBlindedRouteData : BlindedRouteData → Except Nat (List Nat)
  pubKeyOf : Scalar → PubKey
  buildBlindedPathHops : Scalar → List HopInfo → Except Nat (List Nat)
  toSphinxPath : List Nat → Option Nat → List (Nat × List Nat) → Except Nat Nat
  newOnionPacket : Nat → Scalar → Except Nat Nat
  encodePacket : Nat → Except Nat (List Nat)

/-- The result of `sphinx.BuildBlindedPath`: the blinded path plus the
session key. -/
structure BlindedPathInfo where
  Path : List Nat
  SessionKey : Scalar
deriving DecidableEq, Repr

/-- Modelled from the spec: `sphinx.BuildBlindedPath(sessionKey, hops)`
derives the blinded path from the session scalar and the hop infos and
returns it together with that same session scalar as `SessionKey`
(spec §4.D: the blinded path comes "plus the blinding session scalar's
public component"). -/
def BuildBlindedPath (ops : SphinxOps) (sessionKey : Scalar)
    (hops : List HopInfo) : Except Nat BlindedPathInfo :=
  (ops.buildBlindedPathHops sessionKey hops).map (fun p => ⟨p, sessionKey⟩)

/-- The per-hop loop of `buildOnionMessageForPath` (send.go lines 105-144),
producing the `sphinx.HopInfo` list: parse each hop's key, give the final
hop an empty route-data record and every other hop a record pointing at the
next hop's key, and serialize each record.  `i` is the index of the first
remaining hop (used only in error values). -/
def mkHopInfos (ops : SphinxOps) (i : Nat) : List Vertex → Except BuildErr (List HopInfo)
  | [] => .ok []
  | [hop] =>
    match ops.parsePubKey hop with
    | .error e => .error (.invalidHopKey i false e)
    | .ok pubKey =>
      match ops.encodeBlindedRouteData {} with
      | .error e => .error (.encodeRouteData i e)
      | .ok encoded => .ok [⟨pubKey, encoded⟩]
  | hop :: next :: rest =>
    match ops.parsePubKey hop with
    | .error e => .error (.invalidHopKey i false e)
    | .ok pubKey =>
      match ops.parsePubKey next with
      | .error e => .error (.invalidHopKey i true e)
      | .ok nextPub =>
        match ops.encodeBlindedRouteData
            (NewNonFinalBlindedRouteDataOnionMessage (.inl nextPub) none none) with
        | .error e => .error (.encodeRouteData i e)
        | .ok encoded =>
          (mkHopInfos ops (i + 1) (next :: rest)).map (⟨pubKey, encoded⟩ :: ·)

/-- `buildOnionMessageForPath`: construct the blinded onion message for a
path, returning the serialized onion blob and the blinding session public
key for the first hop.  The two session scalars that Go draws freshly via
`btcec.NewPrivateKey()` — the blinded-path session key and the onion session
key — are explicit parameters `sessionKey` and `onionSessionKey`. -/
def buildOnionMessageForPath (ops : SphinxOps) (sessionKey onionSessionKey : Scalar)
    (path : OnionMessagePath) (replyPath : Option Nat)
    (finalHopTLVs : List (Nat × List Nat)) : Except BuildErr (List Nat × PubKey) :=
  match mkHopInfos ops 0 path.Hops with
  | .error e => .error e
  | .ok hopInfos =>
    match BuildBlindedPath ops sessionKey hopInfos with
    | .error e => .error (.buildBlindedPath e)
    | .ok blindedPath =>
      match ops.toSphinxPath blindedPath.Path replyPath finalHopTLVs with
      | .error e => .error (.convertSphinxPath e)
      | .ok sphinxPath =>
        match ops.newOnionPacket sphinxPath onionSessionKey with
        | .error e => .error (.createOnionPacket e)
        | .ok onionPkt =>
          match ops.encodePacket onionPkt with
          | .error e => .error (.encodeOnionPacket e)
          | .ok bytes => .ok (bytes, ops.pubKeyOf blindedPath.SessionKey)

/-- The wire envelope `lnwire.NewOnionMessage(blindingKey, onionBlob)`. -/
structure OnionMsg where
  pathKey : PubKey
  onionBlob : List Nat
deriving DecidableEq, Repr

/-- An actor handle from the receptionist registry (opaque). -/
abbrev ActorRef := Nat

/-- `SendConfig`: dependencies for finding a path and sending an onion
message.  The actor registry (`Receptionist` with `findPeerActor`, modelled
from the spec as a lookup from the 33-byte key to an optional actor handle)
is a function `Vertex → Option ActorRef`. -/
structure SendConfig where
  Graph : NodeTraverser
  OurPubKey : Vertex
  Receptionist : Vertex → Option ActorRef
  MaxHops : Int

/-- `sendToFirstHop`: look up the peer actor for the first hop and send the
onion message.  The successful result carries the single fire-and-forget
`Tell` that was performed — the actor handle and the envelope — since Go
returns nil immediately after the tell without awaiting acknowledgment. -/
def sendToFirstHop (receptionist : Vertex → Option ActorRef) (firstHop : Vertex)
    (blindingKey : PubKey) (onionBlob : List Nat) :
    Except OMError (ActorRef × OnionMsg) :=
  match receptionist firstHop with
  | none => .error .peerActorNotFound
  | some actorRef => .ok (actorRef, ⟨blindingKey, onionBlob⟩)

/-- `SendToDestination`: find a path, reject an empty path
(`path to self is not supported`), build the onion message and dispatch it
to the first hop.  `none` propagates a diverging `FindPath`. -/
def SendToDestination (ops : SphinxOps) (sessionKey onionSessionKey : Scalar)
    (cfg : SendConfig) (destination : Vertex) (finalHopTLVs : List (Nat × List Nat))
    (replyPath : Option Nat) : Option (Except OMError (ActorRef × OnionMsg)) :=
  match FindPath cfg.Graph cfg.OurPubKey destination cfg.MaxHops with
  | none => none
  | some (.error e) => some (.error e)
  | some (.ok path) =>
    if path.Hops.length = 0 then some (.error .pathToSelfUnsupported)
    else
      match buildOnionMessageForPath ops sessionKey onionSessionKey path
          replyPath finalHopTLVs with
      | .error e => some (.error (.buildFailed e))
      | .ok (onionMsg, blindingKey) =>
        some (sendToFirstHop cfg.Receptionist path.Hops.headI blindingKey onionMsg)

/-- `SendDirectToDestination`: build a blinded onion message for a caller
pre-built path (no pathfinding) and send it to the first hop's peer actor;
an empty path is rejected (`path must have at least one hop`). -/
def SendDirectToDestination (ops : SphinxOps) (sessionKey onionSessionKey : Scalar)
    (cfg : SendConfig) (path : OnionMessagePath) (finalHopTLVs : List (Nat × List Nat))
    (replyPath : Option Nat) : Except OMError (ActorRef × OnionMsg) :=
  if path.Hops.length = 0 then .error .emptyPath
  else
    match buildOnionMessageForPath ops sessionKey onionSessionKey path
        replyPath finalHopTLVs with
    | .error e => .error (.buildFailed e)
    | .ok (onionMsg, blindingKey) =>
      sendToFirstHop cfg.Receptionist path.Hops.headI blindingKey onionMsg

/-! ## Specification-side notions for the pathfinding claims -/

/-- Pure feature support: the node's features can be fetched and they
advertise `OnionMessagesOptional`. -/
def nodeSupports (g : NodeTraverser) (v : Vertex) : Bool :=
  match g.fetchNodeFeatures v with
  | .ok feats => hasFeature feats OnionMessagesOptional
  | .error _ => false

/-- An edge of the channel graph as the BFS sees it: `v` is presented as a
channel neighbor of `u`. -/
def edgeTo (g : NodeTraverser) (u v : Vertex) : Prop := v ∈ g.channels u

instance (g : NodeTraverser) (u v : Vertex) : Decidable (edgeTo g u v) :=
  inferInstanceAs (Decidable (v ∈ g.channels u))

/-- `supportingPath g u p w`: `p` is a walk of hops from `u` ending at `w` —
adjacent vertices are channel neighbors and every hop (everything after `u`)
supports onion messages; `p = []` requires `u = w`. -/
def supportingPath (g : NodeTraverser) : Vertex → List Vertex → Vertex → Prop
  | u, [], w => u = w
  | u, h :: t, w => edgeTo g u h ∧ nodeSupports g h = true ∧ supportingPath g h t w

/-- `supportingPath` is decidable (so concrete instances evaluate). -/
def supportingPathDec (g : NodeTraverser) :
    (u : Vertex) → (p : List Vertex) → (w : Vertex) → Decidable (supportingPath g u p w)
  | u, [], w => inferInstanceAs (Decidable (u = w))
  | u, h :: t, w =>
    have : Decidable (supportingPath g h t w) := supportingPathDec g h t w
    inferInstanceAs (Decidable (_ ∧ _ ∧ _))

attribute [instance] supportingPathDec

/-- Reachability from `s` by a walk of exactly `n` supporting hops. -/
inductive ReachIn (g : NodeTraverser) (s : Vertex) : Nat → Vertex → Prop
  | refl : ReachIn g s 0 s
  | step {n : Nat} {u v : Vertex} : ReachIn g s n u → edgeTo g u v →
      nodeSupports g v = true → ReachIn g s (n + 1) v

/-- Reachability from `s` within `n` supporting hops. -/
def ReachLe (g : NodeTraverser) (s : Vertex) (n : Nat) (v : Vertex) : Prop :=
  ∃ m, m ≤ n ∧ ReachIn g s m v

/-- `v` is at supporting-hop distance exactly `n` from `s`. -/
def ExactDist (g : NodeTraverser) (s : Vertex) (n : Nat) (v : Vertex) : Prop :=
  ReachIn g s n v ∧ ∀ m, ReachIn g s m v → n ≤ m

section ReachLemmas

variable {g : NodeTraverser} {s : Vertex}

lemma reachIn_zero {v : Vertex} (h : ReachIn g s 0 v) : v = s := by
  cases h; rfl

lemma reachIn_succ {n : Nat} {v : Vertex} (h : ReachIn g s (n + 1) v) :
    ∃ u, ReachIn g s n u ∧ edgeTo g u v ∧ nodeSupports g v = true := by
  cases h with
  | step hr he hs => exact ⟨_, hr, he, hs⟩

lemma reachLe_zero {v : Vertex} (h : ReachLe g s 0 v) : v = s := by
  obtain ⟨m, hm, hr⟩ := h
  interval_cases m
  exact reachIn_zero hr

lemma reachLe_self : ReachLe g s 0 s := ⟨0, le_refl _, .refl⟩

lemma reachLe_mono {m n : Nat} {v : Vertex} (hmn : m ≤ n) (h : ReachLe g s m v) :
    ReachLe g s n v := by
  obtain ⟨j, hj, hr⟩ := h
  exact ⟨j, hj.trans hmn, hr⟩

lemma reachLe_of_reachIn {n : Nat} {v : Vertex} (h : ReachIn g s n v) :
    ReachLe g s n v := ⟨n, le_refl _, h⟩

lemma exactDist_source : ExactDist g s 0 s := ⟨.refl, fun _ _ => Nat.zero_le _⟩

lemma exactDist_unique {m n : Nat} {v : Vertex} (hm : ExactDist g s m v)
    (hn : ExactDist g s n v) : m = n :=
  le_antisymm (hm.2 _ hn.1) (hn.2 _ hm.1)

lemma exactDist_zero_iff {n : Nat} (h : ExactDist g s n s) : n = 0 :=
  exactDist_unique h exactDist_source

lemma exactDist_ne_source {n : Nat} {v : Vertex} (h : ExactDist g s (n + 1) v) :
    v ≠ s := by
  intro hv
  subst hv
  exact Nat.succ_ne_zero n (exactDist_zero_iff h)

lemma exactDist_of_not_reachLe {n : Nat} {v : Vertex} (hr : ReachIn g s (n + 1) v)
    (hn : ¬ ReachLe g s n v) : ExactDist g s (n + 1) v := by
  refine ⟨hr, fun m hm => ?_⟩
  by_contra hlt
  exact hn ⟨m, by omega, hm⟩

lemma exists_exactDist {m : Nat} {v : Vertex} (h : ReachIn g s m v) :
    ∃ n, n ≤ m ∧ ExactDist g s n v := by
  classical
  have hex : ∃ k, ReachIn g s k v := ⟨m, h⟩
  refine ⟨Nat.find hex, ?_, Nat.find_spec hex, fun k hk => Nat.find_le hk⟩
  exact Nat.find_le h

lemma exactDist_pred {n : Nat} {v : Vertex} (h : ExactDist g s (n + 1) v) :
    ∃ u, ExactDist g s n u ∧ edgeTo g u v ∧ nodeSupports g v = true := by
  obtain ⟨u, hu, he, hs⟩ := reachIn_succ h.1
  obtain ⟨j, hj, hju⟩ := exists_exactDist hu
  have : ReachIn g s (j + 1) v := .step hju.1 he hs
  have hn : n + 1 ≤ j + 1 := h.2 _ this
  have : j = n := by omega
  subst this
  exact ⟨u, hju, he, hs⟩

lemma exists_exact_each_level {l : Nat} {v : Vertex} (h : ExactDist g s l v) :
    ∀ j, j ≤ l → ∃ w, ExactDist g s j w := by
  induction l generalizing v with
  | zero => intro j hj; interval_cases j; exact ⟨v, h⟩
  | succ l ih =>
    intro j hj
    rcases Nat.lt_or_ge j (l + 1) with hlt | hge
    · obtain ⟨u, hu, _, _⟩ := exactDist_pred h
      exact ih hu j (by omega)
    · have : j = l + 1 := by omega
      subst this
      exact ⟨v, h⟩

lemma reachIn_prepend {n : Nat} {a b v : Vertex} (he : edgeTo g a b)
    (hs : nodeSupports g b = true) (hr : ReachIn g b n v) :
    ReachIn g a (n + 1) v := by
  induction hr with
  | refl => exact .step .refl he hs
  | step hr he2 hs2 ih => exact .step ih he2 hs2

lemma supportingPath_reachIn {p : List Vertex} :
    ∀ {u w : Vertex}, supportingPath g u p w → ReachIn g u p.length w := by
  induction p with
  | nil =>
    intro u w h
    cases h
    exact .refl
  | cons a t ih =>
    intro u w h
    obtain ⟨he, hs, hp⟩ := h
    simpa using reachIn_prepend he hs (ih hp)

lemma supportingPath_append_one {p : List Vertex} :
    ∀ {u m w : Vertex}, supportingPath g u p m → edgeTo g m w →
      nodeSupports g w = true → supportingPath g u (p ++ [w]) w := by
  induction p with
  | nil =>
    intro u m w h he hs
    cases h
    exact ⟨he, hs, rfl⟩
  | cons a t ih =>
    intro u m w h he hs
    obtain ⟨h1, h2, h3⟩ := h
    exact ⟨h1, h2, ih h3 he hs⟩

lemma reachIn_supportingPath {n : Nat} {v : Vertex} (h : ReachIn g s n v) :
    ∃ p : List Vertex, supportingPath g s p v ∧ p.length = n := by
  induction h with
  | refl => exact ⟨[], rfl, rfl⟩
  | step hr he hs ih =>
    obtain ⟨p, hp, hlen⟩ := ih
    exact ⟨p ++ [_], supportingPath_append_one hp he hs, by simp [hlen]⟩

lemma supportingPath_supports {p : List Vertex} :
    ∀ {u w : Vertex}, supportingPath g u p w → ∀ x ∈ p, nodeSupports g x = true := by
  induction p with
  | nil => intro u w _ x hx; cases hx
  | cons a t ih =>
    intro u w h x hx
    obtain ⟨_, hs, hp⟩ := h
    rcases List.mem_cons.mp hx with h1 | h1
    · subst h1; exact hs
    · exact ih hp x h1

lemma supportingPath_chain {p : List Vertex} :
    ∀ {u w : Vertex}, supportingPath g u p w → List.Chain (edgeTo g) u p := by
  induction p with
  | nil => intro u w _; exact .nil
  | cons a t ih =>
    intro u w h
    obtain ⟨he, _, hp⟩ := h
    exact .cons he (ih hp)

lemma supportingPath_last {p : List Vertex} :
    ∀ {u w : Vertex} (h : supportingPath g u p w),
      (u :: p).getLast (List.cons_ne_nil u p) = w := by
  induction p with
  | nil => intro u w h; cases h; rfl
  | cons a t ih =>
    intro u w h
    obtain ⟨_, _, hp⟩ := h
    rw [List.getLast_cons (List.cons_ne_nil a t)]
    exact ih hp

end ReachLemmas

/-! ## BFS invariants -/

lemma lookupV_cons {β : Type} (k a : Vertex) (b : β) (l : List (Vertex × β)) :
    lookupV ((k, b) :: l) a = if a = k then some b else lookupV l a := rfl

lemma mem_keys_of_lookupV {β : Type} {l : List (Vertex × β)} {a : Vertex} {b : β}
    (h : lookupV l a = some b) : a ∈ l.map Prod.fst := by
  induction l with
  | nil => simp [lookupV] at h
  | cons p rest ih =>
    obtain ⟨k, w⟩ := p
    rw [lookupV_cons] at h
    by_cases hak : a = k
    · subst hak; simp
    · simp only [if_neg hak] at h
      simpa using Or.inr (ih h)

/-- The feature cache is coherent: every cached bit agrees with the pure
feature check (the destination is pre-cached `true` after the destination
precondition has passed). -/
def CacheOK (g : NodeTraverser) (cache : List (Vertex × Bool)) : Prop :=
  ∀ v b, lookupV cache v = some b → b = nodeSupports g v

/-- Every parent-map entry `v ↦ u` records a real discovery: `v` is a
supporting channel neighbor of `u`, both are visited, and the BFS levels give
them exact distances `n + 1` and `n`. -/
def ParentOK (g : NodeTraverser) (s : Vertex) (st : BFSState) : Prop :=
  ∀ v u, lookupV st.parent v = some u →
    edgeTo g u v ∧ nodeSupports g v = true ∧ v ∈ st.visited ∧ u ∈ st.visited ∧
    ∃ n, ExactDist g s (n + 1) v ∧ ExactDist g s n u

/-- Every visited vertex other than the source has a parent-map entry. -/
def Covered (s : Vertex) (st : BFSState) : Prop :=
  ∀ v ∈ st.visited, v ≠ s → (lookupV st.parent v).isSome = true

/-- Invariant holding while the BFS processes level `i + 1` (the currents of
the level-`i` queue), with `nq` the partially built next queue. -/
structure MidInv (g : NodeTraverser) (s d : Vertex) (i : Nat) (st : BFSState)
    (nq : List Vertex) : Prop where
  cache : CacheOK g st.featureCache
  vis_sound : ∀ v ∈ st.visited, ReachLe g s (i + 1) v
  vis_lo : ∀ v, ReachLe g s i v → v ∈ st.visited
  vis_new : ∀ v ∈ st.visited, ¬ ReachLe g s i v → ExactDist g s (i + 1) v ∧ v ∈ nq
  nq_sound : ∀ v ∈ nq, v ∈ st.visited ∧ ¬ ReachLe g s i v
  parentOK : ParentOK g s st
  covered : Covered s st
  dest_not : d ∉ st.visited

/-- What holds of the BFS state the moment `errBFSDone` fires during
processing of level `m`: everything path reconstruction needs. -/
structure FoundInv (g : NodeTraverser) (s d : Vertex) (m : Nat) (st : BFSState) :
    Prop where
  parentOK : ParentOK g s st
  covered : Covered s st
  dest_vis : d ∈ st.visited
  dest_exact : ExactDist g s m d

/-- Invariant at the head of the `for len(queue) > 0` loop after `i` levels:
visited is exactly the ball of radius `i`, the queue is exactly the sphere of
radius `i`, and the destination is still undiscovered. -/
structure LoopInv (g : NodeTraverser) (s d : Vertex) (i : Nat) (st : BFSState)
    (q : List Vertex) : Prop where
  cache : CacheOK g st.featureCache
  vis_sound : ∀ v ∈ st.visited, ReachLe g s i v
  vis_complete : ∀ v, ReachLe g s i v → v ∈ st.visited
  queue_exact : ∀ v, v ∈ q ↔ ExactDist g s i v
  parentOK : ParentOK g s st
  covered : Covered s st
  dest_not : d ∉ st.visited

section InvariantLemmas

variable {g : NodeTraverser} {s d : Vertex}

lemma supportsOnionMessages_spec {cache : List (Vertex × Bool)}
    (hc : CacheOK g cache) (node : Vertex) :
    (supportsOnionMessages g cache node).1 = nodeSupports g node ∧
    CacheOK g (supportsOnionMessages g cache node).2 := by
  unfold supportsOnionMessages
  cases hl : lookupV cache node with
  | some b => exact ⟨(hc _ _ hl).symm ▸ rfl, hc⟩
  | none =>
    cases hf : g.fetchNodeFeatures node with
    | error e =>
      refine ⟨by simp [nodeSupports, hf], ?_⟩
      intro v b hv
      rw [lookupV_cons] at hv
      by_cases hvn : v = node
      · subst hvn
        simp only [if_true, eq_self_iff_true] at hv
        simp at hv
        simp [hv, nodeSupports, hf]
      · exact hc _ _ (by simpa [if_neg hvn] using hv)
    | ok feats =>
      refine ⟨by simp [nodeSupports, hf], ?_⟩
      intro v b hv
      rw [lookupV_cons] at hv
      by_cases hvn : v = node
      · subst hvn
        simp at hv
        simp [hv, nodeSupports, hf]
      · exact hc _ _ (by simpa [if_neg hvn] using hv)

lemma visitNeighbor_spec {i : Nat} {st : BFSState} {nq : List Vertex}
    {u n : Vertex} (hinv : MidInv g s d i st nq) (hu_ex : ExactDist g s i u)
    (hu_vis : u ∈ st.visited) (he : edgeTo g u n) :
    (∀ st' nq' e, visitNeighbor g d u n st nq = (st', nq', some e) →
       e = .bfsDone ∧ FoundInv g s d (i + 1) st') ∧
    (∀ st' nq', visitNeighbor g d u n st nq = (st', nq', none) →
       MidInv g s d i st' nq' ∧ st.visited ⊆ st'.visited ∧ nq ⊆ nq' ∧
       (nodeSupports g n = true → n ∈ st'.visited)) := by
  unfold visitNeighbor
  by_cases hvis : n ∈ st.visited
  · simp only [if_pos hvis]
    refine ⟨fun st' nq' e hEq => by simp at hEq, fun st' nq' hEq => ?_⟩
    injection hEq with h1 hrest
    injection hrest with h2 _
    subst h1; subst h2
    exact ⟨hinv, fun x hx => hx, fun x hx => hx, fun _ => hvis⟩
  · simp only [if_neg hvis]
    obtain ⟨hfst, hcache⟩ := supportsOnionMessages_spec hinv.cache n
    rcases hso : supportsOnionMessages g st.featureCache n with ⟨b, cache2⟩
    rw [hso] at hfst hcache
    simp only at hfst hcache
    subst hfst
    by_cases hsupp : nodeSupports g n = true
    · rw [hsupp]
      simp only [Bool.not_true, Bool.false_eq_true, if_false]
      have hnle : ¬ ReachLe g s i n := fun hle => hvis (hinv.vis_lo n hle)
      have hreach : ReachIn g s (i + 1) n := .step hu_ex.1 he hsupp
      have hex : ExactDist g s (i + 1) n := exactDist_of_not_reachLe hreach hnle
      have hparent2 : ParentOK g s
          ⟨n :: st.visited, (n, u) :: st.parent, cache2⟩ := by
        intro v w hv
        rw [lookupV_cons] at hv
        by_cases hvn : v = n
        · subst hvn
          simp at hv
          subst hv
          exact ⟨he, hsupp, List.mem_cons_self _ _,
            List.mem_cons_of_mem _ hu_vis, i, hex, hu_ex⟩
        · simp only [if_neg hvn] at hv
          obtain ⟨h1, h2, h3, h4, h5⟩ := hinv.parentOK v w hv
          exact ⟨h1, h2, List.mem_cons_of_mem _ h3, List.mem_cons_of_mem _ h4, h5⟩
      have hcov2 : Covered s ⟨n :: st.visited, (n, u) :: st.parent, cache2⟩ := by
        intro v hv hvs
        rw [lookupV_cons]
        by_cases hvn : v = n
        · simp [if_pos hvn]
        · simp only [if_neg hvn, Option.isSome]
          rcases List.mem_cons.mp hv with h1 | h1
          · exact absurd h1 hvn
          · exact hinv.covered v h1 hvs
      by_cases hnd : n = d
      · simp only [if_pos hnd]
        refine ⟨fun st' nq' e hEq => ?_, fun st' nq' hEq => by simp at hEq⟩
        injection hEq with h1 hrest
        injection hrest with h2 h3
        injection h3 with h3
        subst h1
        refine ⟨h3.symm, ?_⟩
        subst hnd
        exact ⟨hparent2, hcov2, List.mem_cons_self _ _, hex⟩
      · simp only [if_neg hnd]
        refine ⟨fun st' nq' e hEq => by simp at hEq, fun st' nq' hEq => ?_⟩
        injection hEq with h1 hrest
        injection hrest with h2 _
        subst h1; subst h2
        refine ⟨?_, fun x hx => List.mem_cons_of_mem _ hx,
          fun x hx => List.mem_append_left _ hx, fun _ => List.mem_cons_self _ _⟩
        refine ⟨hcache, ?_, ?_, ?_, ?_, hparent2, hcov2, ?_⟩
        · intro v hv
          rcases List.mem_cons.mp hv with h1 | h1
          · subst h1; exact reachLe_of_reachIn hreach
          · exact hinv.vis_sound v h1
        · intro v hv
          exact List.mem_cons_of_mem _ (hinv.vis_lo v hv)
        · intro v hv hnle2
          rcases List.mem_cons.mp hv with h1 | h1
          · subst h1
            exact ⟨hex, List.mem_append_right _ (List.mem_singleton_self _)⟩
          · obtain ⟨he2, hnq2⟩ := hinv.vis_new v h1 hnle2
            exact ⟨he2, List.mem_append_left _ hnq2⟩
        · intro v hv
          rcases List.mem_append.mp hv with h1 | h1
          · obtain ⟨hv1, hv2⟩ := hinv.nq_sound v h1
            exact ⟨List.mem_cons_of_mem _ hv1, hv2⟩
          · rw [List.mem_singleton] at h1
            subst h1
            exact ⟨List.mem_cons_self _ _, hnle⟩
        · intro hd
          rcases List.mem_cons.mp hd with h1 | h1
          · exact hnd h1.symm
          · exact hinv.dest_not h1
    · rw [Bool.not_eq_true] at hsupp
      rw [hsupp]
      simp only [Bool.not_false, if_true]
      refine ⟨fun st' nq' e hEq => by simp at hEq, fun st' nq' hEq => ?_⟩
      injection hEq with h1 hrest
      injection hrest with h2 _
      subst h1; subst h2
      refine ⟨⟨hcache, hinv.vis_sound, hinv.vis_lo, hinv.vis_new, hinv.nq_sound,
        hinv.parentOK, hinv.covered, hinv.dest_not⟩,
        fun x hx => hx, fun x hx => hx, fun hs2 => absurd hs2 (by simp [hsupp])⟩

lemma forEach_spec {i : Nat} {u : Vertex} (hu_ex : ExactDist g s i u) :
    ∀ (cs : List Vertex) (st : BFSState) (nq : List Vertex),
      MidInv g s d i st nq → u ∈ st.visited → (∀ v ∈ cs, edgeTo g u v) →
      (∀ st' nq' e, forEachNodeDirectedChannel g d u cs st nq = (st', nq', some e) →
         (e = .bfsDone → FoundInv g s d (i + 1) st') ∧
         (e ≠ .bfsDone → ∃ m, e = .graphErr m ∧ g.channelErr u = some m)) ∧
      (∀ st' nq', forEachNodeDirectedChannel g d u cs st nq = (st', nq', none) →
         MidInv g s d i st' nq' ∧ st.visited ⊆ st'.visited ∧ nq ⊆ nq' ∧
         (∀ v ∈ cs, nodeSupports g v = true → v ∈ st'.visited) ∧
         g.channelErr u = none) := by
  intro cs
  induction cs with
  | nil =>
    intro st nq hinv hu_vis hcs
    constructor
    · intro st' nq' e hEq
      simp only [forEachNodeDirectedChannel] at hEq
      injection hEq with h1 hrest
      injection hrest with h2 h3
      cases hce : g.channelErr u with
      | none => rw [hce] at h3; simp at h3
      | some m =>
        rw [hce] at h3
        have h4 : some (OMError.graphErr m) = some e := by simpa using h3
        injection h4 with h4
        constructor
        · intro hbfs
          rw [← h4] at hbfs
          cases hbfs
        · intro _
          exact ⟨m, h4.symm, rfl⟩
    · intro st' nq' hEq
      simp only [forEachNodeDirectedChannel] at hEq
      injection hEq with h1 hrest
      injection hrest with h2 h3
      subst h1; subst h2
      cases hce : g.channelErr u with
      | none => exact ⟨hinv, fun x hx => hx, fun x hx => hx, by simp, rfl⟩
      | some m => rw [hce] at h3; simp at h3
  | cons n rest ih =>
    intro st nq hinv hu_vis hcs
    have hvn := visitNeighbor_spec hinv hu_ex hu_vis (hcs n (List.mem_cons_self n rest))
    rcases hv : visitNeighbor g d u n st nq with ⟨st1, nq1, e1⟩
    cases e1 with
    | some e1 =>
      obtain ⟨heq1, hfound⟩ := hvn.1 st1 nq1 e1 hv
      subst heq1
      constructor
      · intro st' nq' e hEq
        simp only [forEachNodeDirectedChannel, hv] at hEq
        injection hEq with h1 hrest
        injection hrest with h2 h3
        injection h3 with h3
        subst h1; subst h3
        exact ⟨fun _ => hfound, fun hne => absurd rfl hne⟩
      · intro st' nq' hEq
        simp only [forEachNodeDirectedChannel, hv] at hEq
        injection hEq with h1 hrest
        injection hrest with h2 h3
        cases h3
    | none =>
      obtain ⟨hmid1, hsub1, hnq1, hsupp1⟩ := hvn.2 st1 nq1 hv
      have hrec := ih st1 nq1 hmid1 (hsub1 hu_vis)
        (fun v hvr => hcs v (List.mem_cons_of_mem n hvr))
      constructor
      · intro st' nq' e hEq
        simp only [forEachNodeDirectedChannel, hv] at hEq
        exact hrec.1 st' nq' e hEq
      · intro st' nq' hEq
        simp only [forEachNodeDirectedChannel, hv] at hEq
        obtain ⟨hmid2, hsub2, hnq2, hpost2, hce2⟩ := hrec.2 st' nq' hEq
        refine ⟨hmid2, fun x hx => hsub2 (hsub1 hx), fun x hx => hnq2 (hnq1 hx),
          ?_, hce2⟩
        intro v hvmem hvsupp
        rcases List.mem_cons.mp hvmem with h1 | h1
        · subst h1; exact hsub2 (hsupp1 hvsupp)
        · exact hpost2 v h1 hvsupp

lemma processQueue_spec {i : Nat} :
    ∀ (qs : List Vertex) (st : BFSState) (nq : List Vertex),
      MidInv g s d i st nq →
      (∀ u ∈ qs, ExactDist g s i u ∧ u ∈ st.visited) →
      (∀ st1, processQueue g d qs st nq = .done st1 →
         FoundInv g s d (i + 1) st1) ∧
      (∀ e, processQueue g d qs st nq = .fail e →
         ∃ u m, u ∈ qs ∧ e = .graphErr m ∧ g.channelErr u = some m) ∧
      (∀ st1 nq1, processQueue g d qs st nq = .next st1 nq1 →
         MidInv g s d i st1 nq1 ∧ st.visited ⊆ st1.visited ∧ nq ⊆ nq1 ∧
         ∀ u ∈ qs, ∀ v, edgeTo g u v → nodeSupports g v = true →
           v ∈ st1.visited) := by
  intro qs
  induction qs with
  | nil =>
    intro st nq hinv hqs
    refine ⟨?_, ?_, ?_⟩
    · intro st1 h
      simp [processQueue] at h
    · intro e h
      simp [processQueue] at h
    · intro st1 nq1 h
      simp only [processQueue] at h
      cases h
      exact ⟨hinv, fun x hx => hx, fun x hx => hx, by simp⟩
  | cons current rest ih =>
    intro st nq hinv hqs
    obtain ⟨hcur_ex, hcur_vis⟩ := hqs current (List.mem_cons_self current rest)
    have hfe := forEach_spec hcur_ex (g.channels current) st nq hinv hcur_vis
      (fun v hv => hv)
    rcases hf : forEachNodeDirectedChannel g d current (g.channels current) st nq
      with ⟨st1, nq1, e1⟩
    cases e1 with
    | some e1 =>
      obtain ⟨hdone, hother⟩ := hfe.1 st1 nq1 e1 hf
      by_cases hbfs : e1 = OMError.bfsDone
      · subst hbfs
        refine ⟨fun st2 h => ?_, fun e h => ?_, fun st2 nq2 h => ?_⟩
        · simp only [processQueue, hf, if_pos rfl] at h
          cases h
          exact hdone rfl
        · simp only [processQueue, hf, if_pos rfl] at h
          cases h
        · simp only [processQueue, hf, if_pos rfl] at h
          cases h
      · refine ⟨fun st2 h => ?_, fun e h => ?_, fun st2 nq2 h => ?_⟩
        · simp only [processQueue, hf, if_neg hbfs] at h
          cases h
        · simp only [processQueue, hf, if_neg hbfs] at h
          cases h
          obtain ⟨m, hm1, hm2⟩ := hother hbfs
          exact ⟨current, m, List.mem_cons_self current rest, hm1, hm2⟩
        · simp only [processQueue, hf, if_neg hbfs] at h
          cases h
    | none =>
      obtain ⟨hmid1, hsub1, hnq1, hpost1, _⟩ := hfe.2 st1 nq1 hf
      have hrec := ih st1 nq1 hmid1
        (fun v hv => ⟨(hqs v (List.mem_cons_of_mem current hv)).1,
          hsub1 (hqs v (List.mem_cons_of_mem current hv)).2⟩)
      refine ⟨fun st2 h => ?_, fun e h => ?_, fun st2 nq2 h => ?_⟩
      · simp only [processQueue, hf] at h
        exact hrec.1 st2 h
      · simp only [processQueue, hf] at h
        obtain ⟨u2, m, hu2, hm1, hm2⟩ := hrec.2.1 e h
        exact ⟨u2, m, List.mem_cons_of_mem current hu2, hm1, hm2⟩
      · simp only [processQueue, hf] at h
        obtain ⟨hmid2, hsub2, hnq2, hpost2⟩ := hrec.2.2 st2 nq2 h
        refine ⟨hmid2, fun x hx => hsub2 (hsub1 hx), fun x hx => hnq2 (hnq1 hx), ?_⟩
        intro v hvmem w hew hsw
        rcases List.mem_cons.mp hvmem with h1 | h1
        · subst h1; exact hsub2 (hpost1 w hew hsw)
        · exact hpost2 v h1 w hew hsw

lemma midInv_init {i : Nat} {st : BFSState} {q : List Vertex}
    (hli : LoopInv g s d i st q) : MidInv g s d i st [] where
  cache := hli.cache
  vis_sound := fun v hv => reachLe_mono (Nat.le_succ i) (hli.vis_sound v hv)
  vis_lo := hli.vis_complete
  vis_new := fun v hv hn => absurd (hli.vis_sound v hv) hn
  nq_sound := fun v hv => absurd hv (List.not_mem_nil v)
  parentOK := hli.parentOK
  covered := hli.covered
  dest_not := hli.dest_not

lemma queue_hyp {i : Nat} {st : BFSState} {q : List Vertex}
    (hli : LoopInv g s d i st q) :
    ∀ u ∈ q, ExactDist g s i u ∧ u ∈ st.visited := by
  intro u hu
  have hex := (hli.queue_exact u).mp hu
  exact ⟨hex, hli.vis_complete u (reachLe_of_reachIn hex.1)⟩

lemma loopInv_next {i : Nat} {st st1 : BFSState} {q nq1 : List Vertex}
    (hli : LoopInv g s d i st q)
    (hq : processQueue g d q st [] = .next st1 nq1) :
    LoopInv g s d (i + 1) st1 nq1 := by
  obtain ⟨hmid, hsub, _, hpost⟩ :=
    (processQueue_spec q st [] (midInv_init hli) (queue_hyp hli)).2.2 st1 nq1 hq
  have hvc : ∀ v, ReachLe g s (i + 1) v → v ∈ st1.visited := by
    intro v hv
    by_cases hle : ReachLe g s i v
    · exact hmid.vis_lo v hle
    · obtain ⟨m, hm, hr⟩ := hv
      have hmeq : m = i + 1 := by
        rcases Nat.lt_or_ge m (i + 1) with h1 | h1
        · exact absurd ⟨m, by omega, hr⟩ hle
        · omega
      subst hmeq
      have hex := exactDist_of_not_reachLe hr hle
      obtain ⟨u, hu, he, hsup⟩ := exactDist_pred hex
      exact hpost u ((hli.queue_exact u).mpr hu) v he hsup
  refine ⟨hmid.cache, hmid.vis_sound, hvc, ?_, hmid.parentOK, hmid.covered,
    hmid.dest_not⟩
  intro v
  constructor
  · intro hv
    obtain ⟨hvis, hnle⟩ := hmid.nq_sound v hv
    exact (hmid.vis_new v hvis hnle).1
  · intro hex
    have hnle : ¬ ReachLe g s i v := by
      intro hle
      obtain ⟨m, hm, hr⟩ := hle
      have := hex.2 m hr
      omega
    have hvis : v ∈ st1.visited := hvc v (reachLe_of_reachIn hex.1)
    exact (hmid.vis_new v hvis hnle).2

lemma loopInv_init (hd2 : nodeSupports g d = true) (hsd : s ≠ d) :
    LoopInv g s d 0 ⟨[s], [], [(d, true)]⟩ [s] := by
  refine ⟨?_, ?_, ?_, ?_, ?_, ?_, ?_⟩
  · intro v b hv
    rw [lookupV_cons] at hv
    by_cases hvd : v = d
    · subst hvd
      simp at hv
      simp [hv, hd2]
    · simp only [if_neg hvd] at hv
      simp [lookupV] at hv
  · intro v hv
    rw [List.mem_singleton] at hv
    subst hv
    exact reachLe_self
  · intro v hv
    rw [List.mem_singleton]
    exact reachLe_zero hv
  · intro v
    rw [List.mem_singleton]
    constructor
    · intro hv; subst hv; exact exactDist_source
    · intro hex
      exact reachIn_zero hex.1
  · intro v u hv
    simp [lookupV] at hv
  · intro v hv hvs
    rw [List.mem_singleton] at hv
    exact absurd hv hvs
  · intro hdv
    rw [List.mem_singleton] at hdv
    exact hsd hdv.symm

lemma reconstructAux_spec {st : BFSState} (hpo : ParentOK g s st)
    (hcov : Covered s st) :
    ∀ (m : Nat) (v : Vertex), ExactDist g s m v → v ∈ st.visited →
      ∀ (fuel : Nat), m < fuel → ∀ (acc : List Vertex),
      ∃ hops : List Vertex,
        reconstructAux st.parent s fuel v acc = some ((acc ++ hops).reverse, true) ∧
        hops.length = m ∧
        supportingPath g s hops.reverse v ∧
        (∀ k (hk : k < hops.length), ExactDist g s (m - k) (hops.get ⟨k, hk⟩)) ∧
        (∀ w ∈ hops, (lookupV st.parent w).isSome = true) := by
  intro m
  induction m with
  | zero =>
    intro v hex hvis fuel hfuel acc
    have hv : v = s := reachIn_zero hex.1
    subst hv
    cases fuel with
    | zero => omega
    | succ f =>
      refine ⟨[], by simp [reconstructAux], rfl, rfl, ?_, by simp⟩
      intro k hk
      simp at hk
  | succ m ih =>
    intro v hex hvis fuel hfuel acc
    have hvs : v ≠ s := exactDist_ne_source hex
    have hcov2 := hcov v hvis hvs
    obtain ⟨u, hu⟩ := Option.isSome_iff_exists.mp hcov2
    obtain ⟨he, hsup, _, huvis, n, hn1, hn2⟩ := hpo v u hu
    have hmn : n = m := by
      have := exactDist_unique hn1 hex
      omega
    subst hmn
    cases fuel with
    | zero => omega
    | succ f =>
      obtain ⟨hops, heq, hlen, hsp, hdist, hmem⟩ :=
        ih u hn2 huvis f (by omega) (acc ++ [v])
      refine ⟨v :: hops, ?_, by simp [hlen], ?_, ?_, ?_⟩
      · simp only [reconstructAux, if_neg hvs, hu]
        rw [heq]
        have hac : (acc ++ [v]) ++ hops = acc ++ (v :: hops) := by simp
        rw [hac]
      · rw [List.reverse_cons]
        exact supportingPath_append_one hsp he hsup
      · intro k hk
        cases k with
        | zero => simpa using hex
        | succ k =>
          have hk2 : k < hops.length := by simpa using hk
          have hd2 := hdist k hk2
          simpa [Nat.succ_sub_succ] using hd2
      · intro w hw
        rcases List.mem_cons.mp hw with h1 | h1
        · subst h1; exact hcov2
        · exact hmem w h1

lemma nodup_of_exact_chain {m : Nat} {hops : List Vertex} (hlen : hops.length = m)
    (hdist : ∀ k (hk : k < hops.length), ExactDist g s (m - k) (hops.get ⟨k, hk⟩)) :
    hops.Nodup := by
  rw [List.nodup_iff_injective_get]
  rintro ⟨a, ha⟩ ⟨b, hb⟩ hab
  have hda := hdist a ha
  have hdb := hdist b hb
  rw [hab] at hda
  have heq := exactDist_unique hda hdb
  have : a = b := by omega
  exact Fin.ext this

lemma source_not_mem_chain {m : Nat} {hops : List Vertex} (hlen : hops.length = m)
    (hdist : ∀ k (hk : k < hops.length), ExactDist g s (m - k) (hops.get ⟨k, hk⟩)) :
    s ∉ hops := by
  intro hs
  obtain ⟨⟨k, hk⟩, hget⟩ := List.mem_iff_get.mp hs
  have hd := hdist k hk
  rw [hget] at hd
  have := exactDist_zero_iff hd
  omega

lemma found_reconstruct {m : Nat} {st : BFSState} (hf : FoundInv g s d m st) :
    ∃ p : OnionMessagePath, reconstructPath st.parent s d = some (p, true) ∧
      p.Hops.length = m ∧ supportingPath g s p.Hops d ∧ p.Hops.Nodup ∧
      s ∉ p.Hops ∧ ∀ j, ReachIn g s j d → m ≤ j := by
  obtain ⟨hops0, _, hlen0, _, hdist0, hmem0⟩ :=
    reconstructAux_spec hf.parentOK hf.covered m d hf.dest_exact hf.dest_vis
      (m + 1) (by omega) []
  have hnodup0 := nodup_of_exact_chain hlen0 hdist0
  have hkeys : ∀ w ∈ hops0, w ∈ st.parent.map Prod.fst := by
    intro w hw
    obtain ⟨u, hu⟩ := Option.isSome_iff_exists.mp (hmem0 w hw)
    exact mem_keys_of_lookupV hu
  have hbound : m ≤ st.parent.length := by
    have hle := (List.subperm_of_subset hnodup0 hkeys).length_le
    rw [hlen0] at hle
    simpa using hle
  obtain ⟨hops, heq, hlen, hsp, hdist, _⟩ :=
    reconstructAux_spec hf.parentOK hf.covered m d hf.dest_exact hf.dest_vis
      (st.parent.length + 1) (by omega) []
  refine ⟨⟨hops.reverse⟩, ?_, by simp [hlen], hsp, ?_, ?_, fun j hj => hf.dest_exact.2 j hj⟩
  · unfold reconstructPath
    rw [heq]
    simp
  · rw [List.nodup_reverse]
    exact nodup_of_exact_chain hlen hdist
  · rw [List.mem_reverse]
    exact source_not_mem_chain hlen hdist

/-- Everything claim C1 needs of a successful BFS result, plus minimality. -/
def PathGood (g : NodeTraverser) (s d : Vertex) (maxHops : Int)
    (p : OnionMessagePath) : Prop :=
  supportingPath g s p.Hops d ∧ p.Hops.Nodup ∧ s ∉ p.Hops ∧
  (p.Hops.length : Int) ≤ maxHops ∧ ∀ j, ReachIn g s j d → p.Hops.length ≤ j

lemma bfsLoop_sound {maxHops : Int} :
    ∀ (fuel : Nat) (i : Nat) (q : List Vertex) (st : BFSState),
      LoopInv g s d i st q → maxHops < (i : Int) + (fuel : Int) →
      ∃ out, bfsLoop g s d maxHops fuel (i : Int) q st = some out ∧
        out.2 = true ∧
        (∀ p, out.1 = .ok p → PathGood g s d maxHops p) ∧
        (∀ e, out.1 = .error e → e = .noPathFound ∨ ∃ n, e = .graphErr n) := by
  intro fuel
  induction fuel with
  | zero =>
    intro i q st hli hmax
    cases q with
    | nil =>
      refine ⟨(.error .noPathFound, true), rfl, rfl, ?_, ?_⟩
      · intro p hp
        cases hp
      · intro e he
        injection he with he
        exact Or.inl he.symm
    | cons a qs =>
      have hlt : maxHops < (i : Int) + 1 := by
        have h1 : maxHops < (i : Int) := by simpa using hmax
        omega
      refine ⟨(.error .noPathFound, true), ?_, rfl, ?_, ?_⟩
      · simp [bfsLoop, if_pos hlt]
      · intro p hp
        cases hp
      · intro e he
        injection he with he
        exact Or.inl he.symm
  | succ fuel ih =>
    intro i q st hli hmax
    cases q with
    | nil =>
      refine ⟨(.error .noPathFound, true), rfl, rfl, ?_, ?_⟩
      · intro p hp
        cases hp
      · intro e he
        injection he with he
        exact Or.inl he.symm
    | cons a qs =>
      by_cases hchk : maxHops < (i : Int) + 1
      · refine ⟨(.error .noPathFound, true), ?_, rfl, ?_, ?_⟩
        · simp [bfsLoop, if_pos hchk]
        · intro p hp
          cases hp
        · intro e he
          injection he with he
          exact Or.inl he.symm
      · have hspec := processQueue_spec (a :: qs) st [] (midInv_init hli)
          (queue_hyp hli)
        rcases hpq : processQueue g d (a :: qs) st [] with st1 | e | ⟨st1, nq1⟩
        · have hfound := hspec.1 st1 hpq
          obtain ⟨p, hrec, hplen, hsp, hnodup, hsmem, hmin⟩ :=
            found_reconstruct hfound
          refine ⟨(.ok p, true), ?_, rfl, ?_, ?_⟩
          · simp only [bfsLoop, if_neg hchk, hpq, hrec]
          · intro p2 hp2
            injection hp2 with hp2
            subst hp2
            refine ⟨hsp, hnodup, hsmem, ?_, fun j hj => hplen ▸ hmin j hj⟩
            rw [hplen]
            push_cast
            omega
          · intro e he
            cases he
        · obtain ⟨u, n, _, hen, _⟩ := hspec.2.1 e hpq
          refine ⟨(.error e, true), ?_, rfl, ?_, ?_⟩
          · simp only [bfsLoop, if_neg hchk, hpq]
          · intro p hp
            cases hp
          · intro e2 he2
            injection he2 with he2
            subst he2
            exact Or.inr ⟨n, hen⟩
        · have hli2 := loopInv_next hli hpq
          have hmax2 : maxHops < ((i + 1 : Nat) : Int) + (fuel : Int) := by
            push_cast
            push_cast at hmax
            omega
          obtain ⟨out, hout, hflag, hok, herr⟩ := ih (i + 1) nq1 st1 hli2 hmax2
          refine ⟨out, ?_, hflag, hok, herr⟩
          have hcast : ((i : Int) + 1) = ((i + 1 : Nat) : Int) := by push_cast; ring
          simp only [bfsLoop, if_neg hchk, hpq]
          rw [hcast]
          exact hout

lemma bfsLoop_complete {maxHops : Int} (hnoerr : ∀ v, g.channelErr v = none)
    {l : Nat} (hl : ExactDist g s l d) (hlmax : (l : Int) ≤ maxHops) :
    ∀ (fuel : Nat) (i : Nat) (q : List Vertex) (st : BFSState),
      LoopInv g s d i st q → maxHops < (i : Int) + (fuel : Int) →
      ∃ p, bfsLoop g s d maxHops fuel (i : Int) q st = some (.ok p, true) ∧
        p.Hops.length = l := by
  intro fuel
  induction fuel with
  | zero =>
    intro i q st hli hmax
    exfalso
    have hil : i < l := by
      rcases Nat.lt_or_ge i l with h1 | h1
      · exact h1
      · exact absurd (hli.vis_complete d ⟨l, h1, hl.1⟩) hli.dest_not
    have h1 : maxHops < (i : Int) := by simpa using hmax
    have h2 : (i : Int) < (l : Int) := by exact_mod_cast hil
    omega
  | succ fuel ih =>
    intro i q st hli hmax
    have hil : i < l := by
      rcases Nat.lt_or_ge i l with h1 | h1
      · exact h1
      · exact absurd (hli.vis_complete d ⟨l, h1, hl.1⟩) hli.dest_not
    obtain ⟨w, hw⟩ := exists_exact_each_level hl i (Nat.le_of_lt hil)
    have hwq : w ∈ q := (hli.queue_exact w).mpr hw
    cases q with
    | nil => cases hwq
    | cons a qs =>
      have hchk : ¬ maxHops < (i : Int) + 1 := by
        have h2 : ((i : Nat) + 1 : Int) ≤ (l : Int) := by exact_mod_cast hil
        push_cast at h2
        omega
      have hspec := processQueue_spec (a :: qs) st [] (midInv_init hli)
        (queue_hyp hli)
      rcases hpq : processQueue g d (a :: qs) st [] with st1 | e | ⟨st1, nq1⟩
      · have hfound := hspec.1 st1 hpq
        have hleq : l = i + 1 := exactDist_unique hl hfound.dest_exact
        obtain ⟨p, hrec, hplen, _, _, _, _⟩ := found_reconstruct hfound
        refine ⟨p, ?_, by omega⟩
        simp only [bfsLoop, if_neg hchk, hpq, hrec]
      · obtain ⟨u, n, _, _, hcu⟩ := hspec.2.1 e hpq
        rw [hnoerr u] at hcu
        cases hcu
      · have hli2 := loopInv_next hli hpq
        have hne : l ≠ i + 1 := by
          intro hleq
          subst hleq
          exact hli2.dest_not (hli2.vis_complete d (reachLe_of_reachIn hl.1))
        have hmax2 : maxHops < ((i + 1 : Nat) : Int) + (fuel : Int) := by
          push_cast
          push_cast at hmax
          omega
        obtain ⟨p, hout, hplen⟩ := ih (i + 1) nq1 st1 hli2 hmax2
        refine ⟨p, ?_, hplen⟩
        have hcast : ((i : Int) + 1) = ((i + 1 : Nat) : Int) := by push_cast; ring
        simp only [bfsLoop, if_neg hchk, hpq]
        rw [hcast]
        exact hout

lemma bfsLoop_noPath {maxHops : Int} (hnoerr : ∀ v, g.channelErr v = none)
    (hfar : ∀ j, ReachIn g s j d → maxHops < (j : Int)) :
    ∀ (fuel : Nat) (i : Nat) (q : List Vertex) (st : BFSState),
      LoopInv g s d i st q → maxHops < (i : Int) + (fuel : Int) →
      bfsLoop g s d maxHops fuel (i : Int) q st = some (.error .noPathFound, true) := by
  intro fuel
  induction fuel with
  | zero =>
    intro i q st hli hmax
    cases q with
    | nil => rfl
    | cons a qs =>
      have hchk : maxHops < (i : Int) + 1 := by
        have h1 : maxHops < (i : Int) := by simpa using hmax
        omega
      simp [bfsLoop, if_pos hchk]
  | succ fuel ih =>
    intro i q st hli hmax
    cases q with
    | nil => rfl
    | cons a qs =>
      by_cases hchk : maxHops < (i : Int) + 1
      · simp [bfsLoop, if_pos hchk]
      · have hspec := processQueue_spec (a :: qs) st [] (midInv_init hli)
          (queue_hyp hli)
        rcases hpq : processQueue g d (a :: qs) st [] with st1 | e | ⟨st1, nq1⟩
        · exfalso
          have hfound := hspec.1 st1 hpq
          have := hfar (i + 1) hfound.dest_exact.1
          push_cast at this
          omega
        · obtain ⟨u, n, _, _, hcu⟩ := hspec.2.1 e hpq
          rw [hnoerr u] at hcu
          cases hcu
        · have hli2 := loopInv_next hli hpq
          have hmax2 : maxHops < ((i + 1 : Nat) : Int) + (fuel : Int) := by
            push_cast
            push_cast at hmax
            omega
          have hcast : ((i : Int) + 1) = ((i + 1 : Nat) : Int) := by push_cast; ring
          simp only [bfsLoop, if_neg hchk, hpq]
          rw [hcast]
          exact ih (i + 1) nq1 st1 hli2 hmax2

lemma findPathI_cases {maxHops : Int} :
    (∃ e, g.fetchNodeFeatures d = .error e ∧
       FindPathI g s d maxHops = some (.error (.graphErr e), true)) ∨
    (∃ feats, g.fetchNodeFeatures d = .ok feats ∧
       hasFeature feats OnionMessagesOptional = false ∧
       FindPathI g s d maxHops = some (.error .destinationNoOnionSupport, true)) ∨
    (s = d ∧ nodeSupports g d = true ∧
       FindPathI g s d maxHops = some (.ok ⟨[]⟩, true)) ∨
    (s ≠ d ∧ nodeSupports g d = true ∧
       FindPathI g s d maxHops =
         bfsLoop g s d maxHops (maxHops.toNat + 1) 0 [s] ⟨[s], [], [(d, true)]⟩) := by
  cases hf : g.fetchNodeFeatures d with
  | error e =>
    refine Or.inl ⟨e, rfl, ?_⟩
    unfold FindPathI
    rw [hf]
  | ok feats =>
    cases hfeat : hasFeature feats OnionMessagesOptional with
    | false =>
      refine Or.inr (Or.inl ⟨feats, rfl, hfeat, ?_⟩)
      unfold FindPathI
      rw [hf]
      simp [hfeat]
    | true =>
      have hsupp : nodeSupports g d = true := by
        unfold nodeSupports
        rw [hf]
        exact hfeat
      by_cases hsd : s = d
      · refine Or.inr (Or.inr (Or.inl ⟨hsd, hsupp, ?_⟩))
        unfold FindPathI
        rw [hf]
        simp [hfeat, hsd]
      · refine Or.inr (Or.inr (Or.inr ⟨hsd, hsupp, ?_⟩))
        unfold FindPathI
        rw [hf]
        simp [hfeat, hsd]

lemma init_fuel_ok (maxHops : Int) :
    maxHops < ((0 : Nat) : Int) + ((maxHops.toNat + 1 : Nat) : Int) := by
  have h := Int.self_le_toNat maxHops
  push_cast
  omega

end InvariantLemmas

/-! ## Claim theorems for the path finder -/

/-- C1.  Every path returned by `FindPath` respects the hop cap, runs through
onion-message-supporting vertices, follows channel edges starting at the
source, ends at the destination, excludes the source, and has pairwise
distinct vertices. -/
theorem findPath_result_invariants (g : NodeTraverser) (s d : Vertex) (k : Int)
    (p : OnionMessagePath) (hk : 0 ≤ k) (h : FindPath g s d k = some (.ok p)) :
    (p.Hops.length : Int) ≤ k ∧ (∀ v ∈ p.Hops, nodeSupports g v = true) ∧
    List.Chain (edgeTo g) s p.Hops ∧
    (s :: p.Hops).getLast (List.cons_ne_nil s p.Hops) = d ∧
    s ∉ p.Hops ∧ p.Hops.Nodup := by
  rcases @findPathI_cases g s d k with
    ⟨e, _, hfp⟩ | ⟨feats, _, _, hfp⟩ | ⟨hsd, _, hfp⟩ | ⟨hsd, hsupp, hfp⟩
  · rw [FindPath, hfp] at h
    simp at h
  · rw [FindPath, hfp] at h
    simp at h
  · rw [FindPath, hfp] at h
    simp at h
    subst h
    subst hsd
    refine ⟨by simpa using hk, by simp, List.Chain.nil, rfl, by simp, List.nodup_nil⟩
  · have hli := loopInv_init hsupp hsd
    obtain ⟨out, hout, hflag, hok, herr⟩ :=
      bfsLoop_sound (k.toNat + 1) 0 [s] _ hli (init_fuel_ok k)
    rw [FindPath, hfp] at h
    rw [show ((0 : Nat) : Int) = (0 : Int) from rfl] at hout
    rw [hout] at h
    simp at h
    obtain ⟨hsp, hnodup, hsmem, hlen, hmin⟩ := hok p h
    exact ⟨hlen, supportingPath_supports hsp, supportingPath_chain hsp,
      supportingPath_last hsp, hsmem, hnodup⟩

/-- C3.  `FindPath` validates the destination before any traversal: a failed
feature fetch propagates the adapter's error (the spec's
`DestinationUnknown`), a missing OnionMessagesOptional bit yields
`destinationNoOnionSupport`, and in both cases the result is independent of
the channel topology, hence the same even when the destination is a direct
neighbor of the source. -/
theorem findPath_checks_destination_first (g : NodeTraverser) (s d : Vertex)
    (k : Int) :
    (∀ e, g.fetchNodeFeatures d = .error e →
       FindPath g s d k = some (.error (.graphErr e))) ∧
    (∀ feats, g.fetchNodeFeatures d = .ok feats →
       hasFeature feats OnionMessagesOptional = false →
       FindPath g s d k = some (.error .destinationNoOnionSupport)) ∧
    (∀ f ch ch2 ce ce2, nodeSupports (NodeTraverser.mk f ch ce) d = false →
       FindPath ⟨f, ch, ce⟩ s d k = FindPath ⟨f, ch2, ce2⟩ s d k) := by
  refine ⟨?_, ?_, ?_⟩
  · intro e hf
    rw [FindPath, FindPathI, hf]
    rfl
  · intro feats hf hfeat
    rw [FindPath, FindPathI, hf]
    simp [hfeat]
  · intro f ch ch2 ce ce2 hns
    unfold nodeSupports at hns
    have hp1 : (⟨f, ch, ce⟩ : NodeTraverser).fetchNodeFeatures d = f d := rfl
    have hp2 : (⟨f, ch2, ce2⟩ : NodeTraverser).fetchNodeFeatures d = f d := rfl
    rw [FindPath, FindPath, FindPathI, FindPathI, hp1]
    rw [hp1] at hns
    cases hf : f d with
    | error e => rfl
    | ok feats =>
      rw [hf] at hns
      simp only at hns
      simp [hns]

/-- C4.  When the source's features are fetchable and include
OnionMessagesOptional, `FindPath g s s k` succeeds with an empty hop list,
for every cap `k ≥ 0`. -/
theorem findPath_self_empty (g : NodeTraverser) (s : Vertex) (k : Int)
    (feats : List Nat) (hf : g.fetchNodeFeatures s = .ok feats)
    (hfeat : hasFeature feats OnionMessagesOptional = true) (hk : 0 ≤ k) :
    FindPath g s s k = some (.ok ⟨[]⟩) := by
  rw [FindPath, FindPathI, hf]
  simp [hfeat]


/-- The `.fail` arm of the BFS level loop never carries the sentinel: the
`err == errBFSDone` comparison intercepts it (pathfind.go lines 115-129). -/
lemma processQueue_fail_ne_sentinel (g : NodeTraverser) (destination : Vertex) :
    ∀ (qs : List Vertex) (st : BFSState) (nq : List Vertex) (e : OMError),
      processQueue g destination qs st nq = .fail e → e ≠ .bfsDone := by
  intro qs
  induction qs with
  | nil =>
    intro st nq e h
    simp [processQueue] at h
  | cons a rest ih =>
    intro st nq e h
    rcases hf : forEachNodeDirectedChannel g destination a (g.channels a) st nq
      with ⟨st1, nq1, e1⟩
    cases e1 with
    | some e1 =>
      by_cases hb : e1 = OMError.bfsDone
      · subst hb
        simp [processQueue, hf] at h
      · simp only [processQueue, hf, if_neg hb] at h
        cases h
        exact hb
    | none =>
      simp only [processQueue, hf] at h
      exact ih st1 nq1 e h

/-- C2.  BFS optimality and completeness: with a supported destination
`d ≠ s` and a failure-free adapter, if a supporting path of length at most
`k` exists then `FindPath` returns a path of exactly the minimum such
length, and if every supporting path is longer than `k` (in particular when
`k = 0`) it returns `noPathFound`. -/
theorem findPath_bfs_optimal (g : NodeTraverser) (s d : Vertex) (k : Int)
    (hd : nodeSupports g d = true) (hsd : s ≠ d)
    (hnoerr : ∀ v, g.channelErr v = none) :
    ((∃ q, supportingPath g s q d ∧ (q.length : Int) ≤ k) →
       ∃ p, FindPath g s d k = some (.ok p) ∧ supportingPath g s p.Hops d ∧
         (p.Hops.length : Int) ≤ k ∧
         ∀ q, supportingPath g s q d → p.Hops.length ≤ q.length) ∧
    ((∀ q, supportingPath g s q d → k < (q.length : Int)) →
       FindPath g s d k = some (.error .noPathFound)) := by
  have hbfs : FindPathI g s d k =
      bfsLoop g s d k (k.toNat + 1) 0 [s] ⟨[s], [], [(d, true)]⟩ := by
    rcases @findPathI_cases g s d k with
      ⟨e, hf, _⟩ | ⟨feats, hf, hfeat, _⟩ | ⟨hsd2, _, _⟩ | ⟨_, _, hfp⟩
    · exfalso
      unfold nodeSupports at hd
      rw [hf] at hd
      simp at hd
    · exfalso
      unfold nodeSupports at hd
      rw [hf] at hd
      simp only at hd
      rw [hfeat] at hd
      cases hd
    · exact absurd hsd2 hsd
    · exact hfp
  have hli := loopInv_init hd hsd
  constructor
  · intro ⟨q0, hq0, hlen0⟩
    have hreach : ReachIn g s q0.length d := supportingPath_reachIn hq0
    obtain ⟨l, hlq, hl⟩ := exists_exactDist hreach
    have hlmax : (l : Int) ≤ k := by
      have h1 : (l : Int) ≤ (q0.length : Int) := by exact_mod_cast hlq
      omega
    obtain ⟨p, hout, hplen⟩ :=
      bfsLoop_complete hnoerr hl hlmax (k.toNat + 1) 0 [s] _ hli (init_fuel_ok k)
    rw [show ((0 : Nat) : Int) = (0 : Int) from rfl] at hout
    obtain ⟨out, hout2, _, hok, _⟩ :=
      bfsLoop_sound (k.toNat + 1) 0 [s] _ hli (init_fuel_ok k)
    rw [show ((0 : Nat) : Int) = (0 : Int) from rfl] at hout2
    rw [hout] at hout2
    injection hout2 with hout2
    obtain ⟨hsp, _, _, hpk, _⟩ := hok p (by rw [← hout2])
    refine ⟨p, ?_, hsp, hpk, ?_⟩
    · rw [FindPath, hbfs, hout]
      rfl
    · intro q hq
      have := hl.2 q.length (supportingPath_reachIn hq)
      omega
  · intro hfar
    have hfar2 : ∀ j, ReachIn g s j d → k < (j : Int) := by
      intro j hj
      obtain ⟨q, hq, hqlen⟩ := reachIn_supportingPath hj
      have := hfar q hq
      rw [hqlen] at this
      exact this
    have hout := bfsLoop_noPath hnoerr hfar2 (k.toNat + 1) 0 [s] _ hli
      (init_fuel_ok k)
    rw [show ((0 : Nat) : Int) = (0 : Int) from rfl] at hout
    rw [FindPath, hbfs, hout]
    rfl

/-- C9.  `FindPath` never surfaces the internal `errBFSDone` sentinel: every
error it returns is `noPathFound`, `destinationNoOnionSupport`, or a genuine
adapter error, and the `.fail` arm that forwards non-sentinel errors can
never carry the sentinel. -/
theorem findPath_sentinel_internal (g : NodeTraverser) (s d : Vertex) (k : Int) :
    (∀ r e, FindPath g s d k = some r → r = .error e →
       e ≠ .bfsDone ∧
       (e = .noPathFound ∨ e = .destinationNoOnionSupport ∨
        ∃ n, e = .graphErr n)) ∧
    (∀ qs st nq e, processQueue g d qs st nq = .fail e → e ≠ .bfsDone) := by
  refine ⟨?_, processQueue_fail_ne_sentinel g d⟩
  intro r e h hr
  subst hr
  have hclass : e = .noPathFound ∨ e = .destinationNoOnionSupport ∨
      ∃ n, e = .graphErr n := by
    rcases @findPathI_cases g s d k with
      ⟨e2, _, hfp⟩ | ⟨feats, _, _, hfp⟩ | ⟨hsd, _, hfp⟩ | ⟨hsd, hsupp, hfp⟩
    · rw [FindPath, hfp] at h
      simp at h
      exact Or.inr (Or.inr ⟨e2, h.symm⟩)
    · rw [FindPath, hfp] at h
      simp at h
      exact Or.inr (Or.inl h.symm)
    · rw [FindPath, hfp] at h
      simp at h
    · have hli := loopInv_init hsupp hsd
      obtain ⟨out, hout, _, _, herr⟩ :=
        bfsLoop_sound (k.toNat + 1) 0 [s] _ hli (init_fuel_ok k)
      rw [FindPath, hfp] at h
      rw [show ((0 : Nat) : Int) = (0 : Int) from rfl] at hout
      rw [hout] at h
      simp at h
      rcases herr e h with h1 | ⟨n, h2⟩
      · exact Or.inl h1
      · exact Or.inr (Or.inr ⟨n, h2⟩)
  refine ⟨?_, hclass⟩
  rcases hclass with h1 | h1 | ⟨n, h1⟩ <;> subst h1 <;> intro hc <;> cases hc

/-- C10.  `FindPath` always terminates with a result (the BFS loop fuel and
the reconstruction fuel `parent.length + 1` always suffice), every
parent-map lookup made during reconstruction finds its key (the ghost flag
is always `true`), and a reconstructed path walks pairwise-distinct
vertices never revisiting the source. -/
theorem findPath_reconstruction_safe (g : NodeTraverser) (s d : Vertex) (k : Int) :
    FindPathI g s d k ≠ none ∧
    (∀ r b, FindPathI g s d k = some (r, b) → b = true) ∧
    (∀ p, FindPath g s d k = some (.ok p) → p.Hops.Nodup ∧ s ∉ p.Hops) := by
  rcases @findPathI_cases g s d k with
    ⟨e, _, hfp⟩ | ⟨feats, _, _, hfp⟩ | ⟨hsd, _, hfp⟩ | ⟨hsd, hsupp, hfp⟩
  · refine ⟨by rw [hfp]; simp, ?_, ?_⟩
    · intro r b h
      rw [hfp] at h
      injection h with h
      injection h with _ h2
      exact h2.symm
    · intro p h
      rw [FindPath, hfp] at h
      simp at h
  · refine ⟨by rw [hfp]; simp, ?_, ?_⟩
    · intro r b h
      rw [hfp] at h
      injection h with h
      injection h with _ h2
      exact h2.symm
    · intro p h
      rw [FindPath, hfp] at h
      simp at h
  · refine ⟨by rw [hfp]; simp, ?_, ?_⟩
    · intro r b h
      rw [hfp] at h
      injection h with h
      injection h with _ h2
      exact h2.symm
    · intro p h
      rw [FindPath, hfp] at h
      simp at h
      subst h
      exact ⟨List.nodup_nil, by simp⟩
  · have hli := loopInv_init hsupp hsd
    obtain ⟨out, hout, hflag, hok, _⟩ :=
      bfsLoop_sound (k.toNat + 1) 0 [s] _ hli (init_fuel_ok k)
    rw [show ((0 : Nat) : Int) = (0 : Int) from rfl] at hout
    refine ⟨by rw [hfp, hout]; simp, ?_, ?_⟩
    · intro r b h
      rw [hfp, hout] at h
      injection h with h
      rw [h] at hflag
      simpa using hflag
    · intro p h
      rw [FindPath, hfp, hout] at h
      simp at h
      obtain ⟨_, hnodup, hsmem, _, _⟩ := hok p h
      exact ⟨hnodup, hsmem⟩

/-! ## Claim lemmas and theorems for the onion builder and dispatcher -/

instance : Inhabited HopInfo := ⟨⟨0, []⟩⟩

/-- Whether an `Except` value is an `ok`. -/
def exceptIsOk {ε α : Type} : Except ε α → Bool
  | .ok _ => true
  | .error _ => false

/-- What C5 requires of the hop info at index `i`: the hop's own key parsed,
and the plaintext is the serialized route-data record — empty for the final
hop, carrying the next hop's key (no channel id, no padding) otherwise. -/
def hopInfoSpec (ops : SphinxOps) (hops : List Vertex) (i : Nat)
    (info : HopInfo) : Prop :=
  ops.parsePubKey hops[i]! = .ok info.NodePub ∧
  (i + 1 = hops.length →
    ops.encodeBlindedRouteData {} = .ok info.PlainText) ∧
  (i + 1 < hops.length →
    ∃ nextPub, ops.parsePubKey hops[i + 1]! = .ok nextPub ∧
      ops.encodeBlindedRouteData
        (NewNonFinalBlindedRouteDataOnionMessage (.inl nextPub) none none) =
        .ok info.PlainText)

lemma mkHopInfos_ok {ops : SphinxOps} :
    ∀ (hops : List Vertex) (j : Nat) (infos : List HopInfo),
      mkHopInfos ops j hops = .ok infos →
      infos.length = hops.length ∧
      ∀ i, i < hops.length → hopInfoSpec ops hops i infos[i]! := by
  intro hops
  induction hops with
  | nil =>
    intro j infos h
    simp only [mkHopInfos] at h
    injection h with h
    subst h
    exact ⟨rfl, by simp⟩
  | cons hop rest ih =>
    intro j infos h
    cases rest with
    | nil =>
      cases hp : ops.parsePubKey hop with
      | error e =>
        simp only [mkHopInfos, hp] at h
        cases h
      | ok pubKey =>
        cases henc : ops.encodeBlindedRouteData {} with
        | error e =>
          simp only [mkHopInfos, hp, henc] at h
          cases h
        | ok encoded =>
          simp only [mkHopInfos, hp, henc] at h
          injection h with h
          subst h
          refine ⟨rfl, ?_⟩
          intro i hi
          have hi0 : i = 0 := by simpa using hi
          subst hi0
          refine ⟨by simpa using hp, fun _ => by simpa using henc, ?_⟩
          intro hlt
          simp at hlt
    | cons next rest2 =>
      cases hp : ops.parsePubKey hop with
      | error e =>
        simp only [mkHopInfos, hp] at h
        cases h
      | ok pubKey =>
        cases hpn : ops.parsePubKey next with
        | error e =>
          simp only [mkHopInfos, hp, hpn] at h
          cases h
        | ok nextPub =>
          cases henc : ops.encodeBlindedRouteData
              (NewNonFinalBlindedRouteDataOnionMessage (.inl nextPub) none none) with
          | error e =>
            simp only [mkHopInfos, hp, hpn, henc] at h
            cases h
          | ok encoded =>
            cases hrec : mkHopInfos ops (j + 1) (next :: rest2) with
            | error e =>
              simp only [mkHopInfos, hp, hpn, henc, hrec, Except.map] at h
              cases h
            | ok infos2 =>
              simp only [mkHopInfos, hp, hpn, henc, hrec, Except.map] at h
              injection h with h
              subst h
              obtain ⟨hlen2, hspec2⟩ := ih (j + 1) infos2 hrec
              refine ⟨by simpa using hlen2, ?_⟩
              intro i hi
              cases i with
              | zero =>
                refine ⟨by simpa using hp, ?_, ?_⟩
                · intro h01
                  simp at h01
                · intro _
                  exact ⟨nextPub, by simpa using hpn, by simpa using henc⟩
              | succ i2 =>
                have hi2 : i2 < (next :: rest2).length := by simpa using hi
                obtain ⟨hs1, hs2, hs3⟩ := hspec2 i2 hi2
                have hidxh : (hop :: next :: rest2)[i2 + 1]! =
                    (next :: rest2)[i2]! := by simp
                have hidxi : (({ NodePub := pubKey, PlainText := encoded } :
                    HopInfo) :: infos2)[i2 + 1]! = infos2[i2]! := by simp
                unfold hopInfoSpec
                rw [hidxh, hidxi]
                refine ⟨hs1, ?_, ?_⟩
                · intro heq
                  apply hs2
                  simpa using heq
                · intro hlt
                  have hlt2 : i2 + 1 < (next :: rest2).length := by simpa using hlt
                  obtain ⟨npk, hnp1, hnp2⟩ := hs3 hlt2
                  refine ⟨npk, ?_, hnp2⟩
                  have hidxh2 : (hop :: next :: rest2)[i2 + 1 + 1]! =
                      (next :: rest2)[i2 + 1]! := by simp
                  rw [hidxh2]
                  exact hnp1

lemma mkHopInfos_parse_failure {ops : SphinxOps}
    (hEnc : ∀ rd, exceptIsOk (ops.encodeBlindedRouteData rd) = true) :
    ∀ (hops : List Vertex) (j : Nat),
      (∃ i, i < hops.length ∧ exceptIsOk (ops.parsePubKey hops[i]!) = false) →
      ∃ a b e, mkHopInfos ops j hops = .error (.invalidHopKey a b e) := by
  intro hops
  induction hops with
  | nil =>
    rintro j ⟨i, hi, _⟩
    simp at hi
  | cons hop rest ih =>
    rintro j ⟨i, hi, hbad⟩
    cases rest with
    | nil =>
      have hi0 : i = 0 := by simpa using hi
      subst hi0
      cases hp : ops.parsePubKey hop with
      | error e =>
        refine ⟨j, false, e, ?_⟩
        simp only [mkHopInfos, hp]
      | ok pubKey =>
        exfalso
        rw [show (hop :: [])[0]! = hop from rfl, hp] at hbad
        simp [exceptIsOk] at hbad
    | cons next rest2 =>
      cases hp : ops.parsePubKey hop with
      | error e =>
        refine ⟨j, false, e, ?_⟩
        simp only [mkHopInfos, hp]
      | ok pubKey =>
        cases hpn : ops.parsePubKey next with
        | error e =>
          refine ⟨j, true, e, ?_⟩
          simp only [mkHopInfos, hp, hpn]
        | ok nextPub =>
          have hrec : ∃ a b e, mkHopInfos ops (j + 1) (next :: rest2) =
              .error (.invalidHopKey a b e) := by
            apply ih
            cases i with
            | zero =>
              exfalso
              rw [show (hop :: next :: rest2)[0]! = hop from rfl, hp] at hbad
              simp [exceptIsOk] at hbad
            | succ i2 =>
              refine ⟨i2, by simpa using hi, ?_⟩
              simpa using hbad
          obtain ⟨a, b, e, hre⟩ := hrec
          have henc := hEnc
            (NewNonFinalBlindedRouteDataOnionMessage (.inl nextPub) none none)
          cases hencc : ops.encodeBlindedRouteData
              (NewNonFinalBlindedRouteDataOnionMessage (.inl nextPub) none none) with
          | error e2 =>
            rw [hencc] at henc
            simp [exceptIsOk] at henc
          | ok encoded =>
            refine ⟨a, b, e, ?_⟩
            simp only [mkHopInfos, hp, hpn, hencc, hre, Except.map]

lemma buildOnion_ok_inv {ops : SphinxOps} {k1 k2 : Scalar}
    {path : OnionMessagePath} {rp : Option Nat} {tlvs : List (Nat × List Nat)}
    {blob : List Nat} {bp : PubKey}
    (h : buildOnionMessageForPath ops k1 k2 path rp tlvs = .ok (blob, bp)) :
    bp = ops.pubKeyOf k1 ∧
    ∃ infos bph sp pkt, mkHopInfos ops 0 path.Hops = .ok infos ∧
      ops.buildBlindedPathHops k1 infos = .ok bph ∧
      ops.toSphinxPath bph rp tlvs = .ok sp ∧
      ops.newOnionPacket sp k2 = .ok pkt ∧ ops.encodePacket pkt = .ok blob := by
  cases hmk : mkHopInfos ops 0 path.Hops with
  | error e =>
    simp only [buildOnionMessageForPath, hmk] at h
    cases h
  | ok infos =>
    cases hbb : ops.buildBlindedPathHops k1 infos with
    | error e =>
      simp only [buildOnionMessageForPath, BuildBlindedPath, hmk, hbb,
        Except.map] at h
      cases h
    | ok bph =>
      cases hts : ops.toSphinxPath bph rp tlvs with
      | error e =>
        simp only [buildOnionMessageForPath, BuildBlindedPath, hmk, hbb,
          Except.map, hts] at h
        cases h
      | ok sp =>
        cases hnp : ops.newOnionPacket sp k2 with
        | error e =>
          simp only [buildOnionMessageForPath, BuildBlindedPath, hmk, hbb,
            Except.map, hts, hnp] at h
          cases h
        | ok pkt =>
          cases hep : ops.encodePacket pkt with
          | error e =>
            simp only [buildOnionMessageForPath, BuildBlindedPath, hmk, hbb,
              Except.map, hts, hnp, hep] at h
            cases h
          | ok bytes =>
            simp only [buildOnionMessageForPath, BuildBlindedPath, hmk, hbb,
              Except.map, hts, hnp, hep] at h
            injection h with h
            injection h with h1 h2
            subst h1
            subst h2
            exact ⟨rfl, infos, bph, sp, pkt, rfl, hbb, hts, hnp, hep⟩

/-- C5.  For every path handed to the onion builder: on success, hop `i`'s
info carries its parsed key and the serialized route-data record — empty for
the final hop, and carrying exactly the next hop's public key (no channel id,
no padding) for each non-final hop; and when any hop's vertex fails to parse
as a public key (the TLV encoder itself being total), the whole call fails
with an invalid-hop-key error. -/
theorem buildOnion_route_records (ops : SphinxOps) (k1 k2 : Scalar)
    (path : OnionMessagePath) (rp : Option Nat) (tlvs : List (Nat × List Nat)) :
    (∀ out, buildOnionMessageForPath ops k1 k2 path rp tlvs = .ok out →
       ∃ infos, mkHopInfos ops 0 path.Hops = .ok infos ∧
         infos.length = path.Hops.length ∧
         ∀ i, i < path.Hops.length → hopInfoSpec ops path.Hops i infos[i]!) ∧
    ((∀ rd, exceptIsOk (ops.encodeBlindedRouteData rd) = true) →
     (∃ i, i < path.Hops.length ∧
        exceptIsOk (ops.parsePubKey path.Hops[i]!) = false) →
     ∃ a b e, buildOnionMessageForPath ops k1 k2 path rp tlvs =
       .error (.invalidHopKey a b e)) := by
  constructor
  · intro out h
    cases hmk : mkHopInfos ops 0 path.Hops with
    | error e =>
      simp only [buildOnionMessageForPath, hmk] at h
      cases h
    | ok infos =>
      obtain ⟨hlen, hspec⟩ := mkHopInfos_ok path.Hops 0 infos hmk
      exact ⟨infos, rfl, hlen, hspec⟩
  · intro hEnc hbad
    obtain ⟨a, b, e, hmk⟩ := mkHopInfos_parse_failure hEnc path.Hops 0 hbad
    refine ⟨a, b, e, ?_⟩
    simp only [buildOnionMessageForPath, hmk]

/-- C6.  The builder's blinding public key is the public key of the
blinded-path session scalar `k1` — independent of the onion session scalar —
the blinded path is derived from `k1` while the onion packet is built from
`k2`, and with both scalars fixed the outputs are byte-identical across
runs. -/
theorem buildOnion_session_scalars (ops : SphinxOps) (k1 k2 : Scalar)
    (path : OnionMessagePath) (rp : Option Nat) (tlvs : List (Nat × List Nat))
    (blob : List Nat) (bp : PubKey)
    (h : buildOnionMessageForPath ops k1 k2 path rp tlvs = .ok (blob, bp)) :
    bp = ops.pubKeyOf k1 ∧
    (∀ k2b blob2 bp2,
       buildOnionMessageForPath ops k1 k2b path rp tlvs = .ok (blob2, bp2) →
       bp2 = ops.pubKeyOf k1) ∧
    (∃ infos bph sp pkt, mkHopInfos ops 0 path.Hops = .ok infos ∧
       ops.buildBlindedPathHops k1 infos = .ok bph ∧
       ops.toSphinxPath bph rp tlvs = .ok sp ∧
       ops.newOnionPacket sp k2 = .ok pkt ∧
       ops.encodePacket pkt = .ok blob) ∧
    (∀ blob2 bp2,
       buildOnionMessageForPath ops k1 k2 path rp tlvs = .ok (blob2, bp2) →
       blob2 = blob ∧ bp2 = bp) := by
  refine ⟨(buildOnion_ok_inv h).1, ?_, (buildOnion_ok_inv h).2, ?_⟩
  · intro k2b blob2 bp2 h2
    exact (buildOnion_ok_inv h2).1
  · intro blob2 bp2 h2
    rw [h] at h2
    injection h2 with h2
    injection h2 with h21 h22
    exact ⟨h21.symm, h22.symm⟩

/-- C7.  Both send entry points reject an empty path before building or
dispatching anything: `SendToDestination` fails with the path-to-self error
when pathfinding returned an empty path, and `SendDirectToDestination` fails
with the empty-path error on a caller-provided empty path — for every
crypto-primitive bundle, session scalars and receptionist, so no onion is
built and no actor is contacted. -/
theorem send_rejects_empty_path (ops : SphinxOps) (k1 k2 : Scalar)
    (cfg : SendConfig) (destination : Vertex) (tlvs : List (Nat × List Nat))
    (rp : Option Nat) :
    (FindPath cfg.Graph cfg.OurPubKey destination cfg.MaxHops =
       some (.ok ⟨[]⟩) →
     SendToDestination ops k1 k2 cfg destination tlvs rp =
       some (.error .pathToSelfUnsupported)) ∧
    (∀ path : OnionMessagePath, path.Hops = [] →
       SendDirectToDestination ops k1 k2 cfg path tlvs rp =
         .error .emptyPath) := by
  constructor
  · intro hfp
    simp only [SendToDestination, hfp]
    rfl
  · intro path hpath
    simp only [SendDirectToDestination, hpath]
    rfl

/-- C8.  The dispatcher fails with `peerActorNotFound` exactly when the
registry has no handle for the first hop's key; with a handle present it
returns success carrying the single fire-and-forget tell — that handle and
the envelope of the blinding key and onion blob — with no error possible
after the lookup. -/
theorem dispatch_first_hop (receptionist : Vertex → Option ActorRef)
    (firstHop : Vertex) (blindingKey : PubKey) (onionBlob : List Nat) :
    (sendToFirstHop receptionist firstHop blindingKey onionBlob =
       .error .peerActorNotFound ↔ receptionist firstHop = none) ∧
    (∀ a, receptionist firstHop = some a →
       sendToFirstHop receptionist firstHop blindingKey onionBlob =
         .ok (a, ⟨blindingKey, onionBlob⟩)) := by
  constructor
  · constructor
    · intro h
      cases hr : receptionist firstHop with
      | none => rfl
      | some a =>
        rw [sendToFirstHop, hr] at h
        cases h
    · intro h
      rw [sendToFirstHop, h]
  · intro a h
    rw [sendToFirstHop, h]

/-! ## Concrete instances for the witnesses -/

/-- A concrete graph: vertices 1 and 2 joined by a channel, both advertising
OnionMessagesOptional; vertex 3 is in the graph without the feature; vertex 4
is absent (its feature fetch fails); vertex 5 is isolated. -/
def wGraph : NodeTraverser where
  fetchNodeFeatures := fun v =>
    if v = 4 then .error 7 else if v = 3 then .ok [] else .ok [39]
  channels := fun v => if v = 1 then [2] else if v = 2 then [1] else []
  channelErr := fun _ => none

/-- A concrete crypto-primitive bundle: vertex 99 has an unparsable key,
every other key parses; all other primitives are total. -/
def wOps : SphinxOps where
  parsePubKey := fun v => if v = 99 then .error 1 else .ok (v + 1000)
  encodeBlindedRouteData := fun rd => .ok [rd.nextNodeID.getD 0]
  pubKeyOf := fun k => k + 2000
  buildBlindedPathHops := fun k infos => .ok (k :: infos.map HopInfo.NodePub)
  toSphinxPath := fun bph rp tlvs => .ok (bph.length + tlvs.length)
  newOnionPacket := fun sp k => .ok (sp + k)
  encodePacket := fun pkt => .ok [pkt]

/-- A concrete actor registry with a handle only for vertex 2. -/
def wReceptionist : Vertex → Option ActorRef :=
  fun v => if v = 2 then some 11 else none

/-- Witness for C1 on the concrete graph: the returned one-hop path `[2]`
excludes the source and is duplicate-free. -/
theorem findPath_result_invariants_witness :
    FindPath wGraph 1 2 20 = some (.ok ⟨[2]⟩) ∧
    (1 : Vertex) ∉ (OnionMessagePath.mk [2]).Hops ∧
    (OnionMessagePath.mk [2]).Hops.Nodup :=
  ⟨rfl, (findPath_result_invariants wGraph 1 2 20 ⟨[2]⟩ (by decide) rfl).2.2.2.2⟩

/-- Witness for C2: on the concrete graph a supporting path `[2]` of length
one exists, so `FindPath` returns a minimum-length path. -/
theorem findPath_bfs_optimal_witness :
    ∃ p, FindPath wGraph 1 2 20 = some (.ok p) ∧
      supportingPath wGraph 1 p.Hops 2 ∧ ((p.Hops.length : Int) ≤ 20) ∧
      ∀ q, supportingPath wGraph 1 q 2 → p.Hops.length ≤ q.length :=
  (findPath_bfs_optimal wGraph 1 2 20 (by decide) (by decide) (fun _ => rfl)).1
    ⟨[2], by decide, by decide⟩

/-- Witness for C3: destination 4 is absent (error 7 propagates) and
destination 3 lacks the feature. -/
theorem findPath_checks_destination_first_witness :
    FindPath wGraph 1 4 20 = some (.error (.graphErr 7)) ∧
    FindPath wGraph 1 3 20 = some (.error .destinationNoOnionSupport) :=
  ⟨(findPath_checks_destination_first wGraph 1 4 20).1 7 rfl,
   (findPath_checks_destination_first wGraph 1 3 20).2.1 [] rfl rfl⟩

/-- Witness for C4: `FindPath wGraph 1 1 5` returns the empty path. -/
theorem findPath_self_empty_witness :
    FindPath wGraph 1 1 5 = some (.ok ⟨[]⟩) :=
  findPath_self_empty wGraph 1 5 [39] rfl rfl (by decide)

/-- Witness for C5: on the two-hop path `[1, 2]` the hop infos satisfy the
per-hop record specification, and the path `[1, 99]` whose second hop has an
unparsable key makes the call fail with an invalid-hop-key error. -/
theorem buildOnion_route_records_witness :
    (∃ infos, mkHopInfos wOps 0 (OnionMessagePath.mk [1, 2]).Hops = .ok infos ∧
       infos.length = (OnionMessagePath.mk [1, 2]).Hops.length ∧
       ∀ i, i < (OnionMessagePath.mk [1, 2]).Hops.length →
         hopInfoSpec wOps (OnionMessagePath.mk [1, 2]).Hops i infos[i]!) ∧
    (∃ a b e, buildOnionMessageForPath wOps 5 6 ⟨[1, 99]⟩ none [] =
       .error (.invalidHopKey a b e)) :=
  ⟨(buildOnion_route_records wOps 5 6 ⟨[1, 2]⟩ none []).1 ([9], 2005) rfl,
   (buildOnion_route_records wOps 5 6 ⟨[1, 99]⟩ none []).2 (fun _ => rfl)
     ⟨1, by decide, rfl⟩⟩

/-- Witness for C6: with blinding scalar 5 and onion scalar 6 the build
succeeds and the returned blinding pubkey is `pubKeyOf 5`. -/
theorem buildOnion_session_scalars_witness :
    buildOnionMessageForPath wOps 5 6 ⟨[1, 2]⟩ none [] = .ok ([9], 2005) ∧
    (2005 : PubKey) = wOps.pubKeyOf 5 :=
  ⟨rfl, (buildOnion_session_scalars wOps 5 6 ⟨[1, 2]⟩ none [] [9] 2005 rfl).1⟩

/-- Witness for C7: sending to self yields the empty path and is rejected;
a direct send of an empty path is rejected. -/
theorem send_rejects_empty_path_witness :
    SendToDestination wOps 5 6 ⟨wGraph, 1, wReceptionist, 20⟩ 1 [] none =
      some (.error .pathToSelfUnsupported) ∧
    SendDirectToDestination wOps 5 6 ⟨wGraph, 1, wReceptionist, 20⟩ ⟨[]⟩ []
      none = .error .emptyPath :=
  ⟨(send_rejects_empty_path wOps 5 6 ⟨wGraph, 1, wReceptionist, 20⟩ 1 []
      none).1 rfl,
   (send_rejects_empty_path wOps 5 6 ⟨wGraph, 1, wReceptionist, 20⟩ 1 []
      none).2 ⟨[]⟩ rfl⟩

/-- Witness for C8: vertex 2 has an actor handle and receives the tell;
vertex 3 has none. -/
theorem dispatch_first_hop_witness :
    sendToFirstHop wReceptionist 2 9 [1] = .ok (11, ⟨9, [1]⟩) ∧
    (sendToFirstHop wReceptionist 3 9 [1] = .error .peerActorNotFound ↔
      wReceptionist 3 = none) :=
  ⟨(dispatch_first_hop wReceptionist 2 9 [1]).2 11 rfl,
   (dispatch_first_hop wReceptionist 3 9 [1]).1⟩

/-- Witness for C9: the error returned for the unreachable vertex 5 is
`noPathFound`, not the sentinel. -/
theorem findPath_sentinel_internal_witness :
    FindPath wGraph 1 5 20 = some (.error .noPathFound) ∧
    OMError.noPathFound ≠ OMError.bfsDone :=
  ⟨rfl, ((findPath_sentinel_internal wGraph 1 5 20).1 (.error .noPathFound)
      .noPathFound rfl rfl).1⟩

/-- Witness for C10: on the concrete graph the instrumented search returns a
result whose reconstructed path `[2]` is duplicate-free and source-free. -/
theorem findPath_reconstruction_safe_witness :
    FindPathI wGraph 1 2 20 ≠ none ∧
    (OnionMessagePath.mk [2]).Hops.Nodup ∧
    (1 : Vertex) ∉ (OnionMessagePath.mk [2]).Hops :=
  ⟨(findPath_reconstruction_safe wGraph 1 2 20).1,
   ((findPath_reconstruction_safe wGraph 1 2 20).2.2 ⟨[2]⟩ rfl).1,
   ((findPath_reconstruction_safe wGraph 1 2 20).2.2 ⟨[2]⟩ rfl).2⟩

end OnionMessage
